import Mathlib

/-! gproxy: a verification development for `gprox.go`.

The program fetches a list of SOCKS5 proxies, probes every candidate in its
own goroutine, collects the accepted ones in `workingProxies` under a mutex,
and then runs an interactive selection loop.

Everything the program obtains from outside (HTTP replies, the output of the
`ping` command, the lines typed by the user, the order in which goroutines are
scheduled) is an explicit argument of the definitions below.  Every function
returns, next to its Go result, the list of effects it performs, in order.
-/

namespace GProxy

/-! ## Data model -/

/-- The Go struct `Proxy` (gprox.go, lines 28-34). -/
structure Proxy where
  IP : String
  Port : Int
  Country : String
  ISP : String
  Ping : Int
  deriving DecidableEq, Repr

/-- The constant `maxPing` (line 26). -/
def maxPing : Int := 200

/-- The constant `proxyListURL` (line 23). -/
def proxyListURL : String :=
  "https://raw.githubusercontent.com/proxifly/free-proxy-list/refs/heads/main/proxies/protocols/socks5/data.json"

/-- The constant `geoIPURL` (line 24). -/
def geoIPURL : String := "https://ipwhois.app/json/"

/-- The constant `testURL` (line 25). -/
def testURL : String := "https://www.google.com"

/-- The constant `http.StatusOK`. -/
def StatusOK : Int := 200

/-- The functions of the program whose calls are recorded in a trace. -/
inductive Call
  | fetchProxyList
  | getGeoInfo (ip defaultCountry defaultISP : String)
  | getPing (ip : String)
  | isProxyWorking (prxy : Proxy)
  | setSystemProxy (prxy : Proxy)
  | disableSystemProxy
  deriving DecidableEq, Repr

/-- The messages the program prints; `Msg.text` gives the fixed part of each. -/
inductive Msg
  | fetchGetErr
  | fetchReadErr
  | fetchJsonErr
  | geoGetErr
  | geoReadErr
  | geoEmpty
  | geoJsonErr
  | geoBody (body : String)
  | pingErr
  | socksErr
  | httpsErr
  | connected (ip : String) (port : Int)
  | connInfo (ip : String) (port ping : Int) (country isp : String)
  | proxiesDisabled
  | working (ip : String) (port : Int)
  | excludedPing (ip : String) (port : Int)
  | excludedDead (ip : String) (port : Int)
  | noProxies
  | available
  | entry (n : Int) (ip : String) (port : Int) (country : String) (ping : Int) (isp : String)
  | choose
  | invalidChoice
  | changeOrExit
  deriving DecidableEq, Repr

/-- The text of a message, as formatted by the `fmt` calls of the program
    (the text of a Go `error` value, which comes from the library, is left out). -/
def Msg.text : Msg → String
  | .fetchGetErr => "Ошибка при получении списка прокси:"
  | .fetchReadErr => "Ошибка при чтении ответа:"
  | .fetchJsonErr => "Ошибка при разборе JSON:"
  | .geoGetErr => "Ошибка при получении геоинформации:"
  | .geoReadErr => "Ошибка при чтении ответа от гео-IP API:"
  | .geoEmpty => "Пустой ответ от гео-IP API"
  | .geoJsonErr => "Ошибка при разборе JSON от гео-IP API:"
  | .geoBody body => "Ответ от гео-IP API: " ++ body
  | .pingErr => "Ошибка при выполнении пинга:"
  | .socksErr => "Ошибка создания SOCKS5 прокси:"
  | .httpsErr => "Ошибка при выполнении HTTPS запроса:"
  | .connected ip port => "Подключено к прокси (SOCKS5): " ++ ip ++ ":" ++ toString port
  | .connInfo ip port ping country isp =>
      "Информация о подключении: IP=" ++ ip ++ ", Port=" ++ toString port ++ ", Ping="
        ++ toString ping ++ " ms, Страна=" ++ country ++ ", Провайдер=" ++ isp
  | .proxiesDisabled => "Системные прокси отключены"
  | .working ip port => "Рабочий прокси " ++ ip ++ ":" ++ toString port ++ " поддерживает HTTPS"
  | .excludedPing ip port =>
      "Исключен прокси " ++ ip ++ ":" ++ toString port ++ " (проблема с пингом)"
  | .excludedDead ip port =>
      "Исключен прокси " ++ ip ++ ":" ++ toString port ++ " (не работает или не поддерживает HTTPS)"
  | .noProxies => "Нет доступных прокси, поддерживающих HTTPS"
  | .available => "Доступные прокси:"
  | .entry n ip port country ping isp =>
      toString n ++ ": " ++ ip ++ ":" ++ toString port ++ " (" ++ country ++ ", ping: "
        ++ toString ping ++ " ms, ISP: " ++ isp ++ ")"
  | .choose => "Выберите номер прокси: "
  | .invalidChoice => "Неверный выбор, попробуйте снова"
  | .changeOrExit => "Введите \x27change\x27 для смены прокси или \x27exit\x27 для выхода: "

/-- One effect of the program on the outside world, or the entry of one of
    its functions. -/
inductive Event
  | call (c : Call)
  | print (m : Msg)
  | httpGet (url : String)
  | exec (argv : List String)
  | scan
  | sleep (minutes : Nat)
  | osExit (code : Int)
  deriving DecidableEq, Repr

/-! ## Library functions used by the program -/

/-- The function `strings.Contains` on character lists. -/
def Contains : List Char → List Char → Bool
  | [], substr => substr.isEmpty
  | c :: cs, substr => substr.isPrefixOf (c :: cs) || Contains cs substr

/-- Helper of `Split`: `cur` holds the current field, reversed. -/
def splitAux (sep : Char) : List Char → List Char → List (List Char)
  | [], cur => [cur.reverse]
  | c :: cs, cur =>
    if c = sep then cur.reverse :: splitAux sep cs [] else splitAux sep cs (c :: cur)

/-- The function `strings.Split` for a separator of one character (the program
    splits on a newline and on a slash only). -/
def Split (s : List Char) (sep : Char) : List (List Char) := splitAux sep s []

/-- The value of a decimal digit. -/
def digitVal (c : Char) : Option Nat :=
  if 48 ≤ c.toNat ∧ c.toNat ≤ 57 then some (c.toNat - 48) else none

/-- Reads a run of decimal digits; `none` when a character is not a digit. -/
def natOfDigits : List Char → Nat → Option Nat
  | [], acc => some acc
  | c :: cs, acc =>
    match digitVal c with
    | some d => natOfDigits cs (acc * 10 + d)
    | none => none

/-- A non-empty run of decimal digits. -/
def parseUnsigned (cs : List Char) : Option Nat :=
  if cs.isEmpty then none else natOfDigits cs 0

/-- The function `strconv.Atoi` for a 64-bit `int`: an optional sign followed by
    one or more decimal digits; `none` stands for a returned error (a syntax
    error, or a value outside the range of `int`). -/
def Atoi (s : String) : Option Int :=
  match s.toList with
  | [] => none
  | c :: cs =>
    if c = '-' then
      match parseUnsigned cs with
      | some n => if n ≤ 2 ^ 63 then some (-(n : Int)) else none
      | none => none
    else if c = '+' then
      match parseUnsigned cs with
      | some n => if n < 2 ^ 63 then some (n : Int) else none
      | none => none
    else
      match parseUnsigned (c :: cs) with
      | some n => if n < 2 ^ 63 then some (n : Int) else none
      | none => none

/-- What the program sees of `strconv.ParseFloat(s, 64)`: the returned number
    after the conversion `int(...)`, and whether an error was returned. -/
structure FloatParse where
  truncated : Int
  err : Bool
  deriving DecidableEq, Repr

/-- Splits a list at the first occurrence of a character. -/
def splitFirst (sep : Char) : List Char → List Char × Option (List Char)
  | [] => ([], none)
  | c :: cs =>
    if c = sep then ([], some cs)
    else ((splitFirst sep cs).1.cons c, (splitFirst sep cs).2)

/-- A stand-in for `strconv.ParseFloat(s, 64)` followed by `int(...)`, used only
    to evaluate the program on concrete `ping` outputs.  It reads an optional
    sign, decimal digits and an optional fraction part, and returns the integer
    part; every other string gives 0 and an error.  It agrees with Go on the
    strings it is evaluated at in this file: plain decimal numerals with a few
    digits, and strings that are no numeral at all, for which Go returns 0 and
    a syntax error.  It is not Go's function elsewhere: it does not round to a
    `float64` before truncating (so "200.99999999999999999" gives 200, Go
    201), it does not overflow on numerals beyond the range of `int`, and it
    reports numerals with an exponent, hexadecimal numerals, "Inf" and "NaN"
    as errors.  The functions of the program take the parser as an argument,
    and the general statements hold for every parser. -/
def parseDecimal (s : String) : FloatParse :=
  let body (cs : List Char) : Option Nat :=
    match splitFirst '.' cs with
    | (ip, none) => parseUnsigned ip
    | (ip, some fp) =>
      if ip.isEmpty then (parseUnsigned fp).map (fun _ => 0)
      else
        match parseUnsigned ip, natOfDigits fp 0 with
        | some n, some _ => some n
        | _, _ => none
  match s.toList with
  | [] => ⟨0, true⟩
  | c :: cs =>
    if c = '-' then
      match body cs with
      | some n => ⟨-(n : Int), false⟩
      | none => ⟨0, true⟩
    else if c = '+' then
      match body cs with
      | some n => ⟨(n : Int), false⟩
      | none => ⟨0, true⟩
    else
      match body (c :: cs) with
      | some n => ⟨(n : Int), false⟩
      | none => ⟨0, true⟩

/-! ## The functions of the program -/

/-- What the outside world answers to `fetchProxyList`. -/
inductive FetchOutcome
  | getErr
  | readErr
  | jsonErr
  | ok (proxies : List Proxy)
  deriving DecidableEq, Repr

/-- The function `fetchProxyList` (lines 41-63); the nil slice is the empty list. -/
def fetchProxyList (o : FetchOutcome) : List Event × List Proxy :=
  match o with
  | .getErr => ([.call .fetchProxyList, .httpGet proxyListURL, .print .fetchGetErr], [])
  | .readErr => ([.call .fetchProxyList, .httpGet proxyListURL, .print .fetchReadErr], [])
  | .jsonErr => ([.call .fetchProxyList, .httpGet proxyListURL, .print .fetchJsonErr], [])
  | .ok proxies => ([.call .fetchProxyList, .httpGet proxyListURL], proxies)

/-- What the outside world answers to `getGeoInfo`. -/
inductive GeoOutcome
  | getErr
  | readErr
  | emptyBody
  | jsonErr (body : String)
  | ok (Country ISP : String)
  deriving DecidableEq, Repr

/-- The function `getGeoInfo` (lines 65-93). -/
def getGeoInfo (ip defaultCountry defaultISP : String) (o : GeoOutcome) :
    List Event × (String × String) :=
  let pre : List Event := [.call (.getGeoInfo ip defaultCountry defaultISP), .httpGet (geoIPURL ++ ip)]
  match o with
  | .getErr => (pre ++ [.print .geoGetErr], (defaultCountry, defaultISP))
  | .readErr => (pre ++ [.print .geoReadErr], (defaultCountry, defaultISP))
  | .emptyBody => (pre ++ [.print .geoEmpty], (defaultCountry, defaultISP))
  | .jsonErr body =>
      (pre ++ [.print .geoJsonErr, .print (.geoBody body)], (defaultCountry, defaultISP))
  | .ok Country ISP => (pre, (Country, ISP))

/-- What the `ping` command answers: a failure of the command, or its output. -/
inductive PingOutcome
  | failed
  | output (out : String)
  deriving DecidableEq, Repr

/-- The loop over the output lines in `getPing` (lines 103-112). -/
def scanLines (ParseFloat : String → FloatParse) : List (List Char) → Int
  | [] => -1
  | line :: lines =>
    if Contains line "avg".toList then
      let parts := Split line '/'
      if h : 5 ≤ parts.length then
        (ParseFloat (String.mk (parts.get ⟨4, by omega⟩))).truncated
      else scanLines ParseFloat lines
    else scanLines ParseFloat lines

/-- The function `getPing` (lines 95-113). -/
def getPing (ParseFloat : String → FloatParse) (ip : String) (o : PingOutcome) :
    List Event × Int :=
  let pre : List Event := [.call (.getPing ip), .exec ["ping", "-c", "4", ip]]
  match o with
  | .failed => (pre ++ [.print .pingErr], -1)
  | .output out => (pre, scanLines ParseFloat (Split out.toList '\n'))

/-- What the outside world answers to the probe of `isProxyWorking`. -/
inductive ProbeOutcome
  | dialerErr
  | requestErr
  | response (StatusCode : Int)
  deriving DecidableEq, Repr

/-- The function `isProxyWorking` (lines 115-150). -/
def isProxyWorking (prxy : Proxy) (o : ProbeOutcome) : List Event × Bool :=
  match o with
  | .dialerErr => ([.call (.isProxyWorking prxy), .print .socksErr], false)
  | .requestErr => ([.call (.isProxyWorking prxy), .httpGet testURL, .print .httpsErr], false)
  | .response StatusCode =>
      ([.call (.isProxyWorking prxy), .httpGet testURL], decide (StatusCode = StatusOK))

/-- The function `setSystemProxy` (lines 152-161). -/
def setSystemProxy (ParseFloat : String → FloatParse) (prxy : Proxy)
    (geo : GeoOutcome) (png : PingOutcome) : List Event :=
  let ip := prxy.IP
  let port := prxy.Port
  let g := getGeoInfo ip "Неизвестно" "Неизвестно" geo
  let p := getPing ParseFloat ip png
  [.call (.setSystemProxy prxy),
   .exec ["networksetup", "-setsocksfirewallproxy", "Wi-Fi", ip, toString port],
   .exec ["networksetup", "-setsocksfirewallproxy", "Ethernet", ip, toString port],
   .print (.connected ip port)]
  ++ g.1 ++ p.1 ++ [.print (.connInfo ip port p.2 g.2.1 g.2.2)]

/-- The function `disableSystemProxy` (lines 163-167). -/
def disableSystemProxy : List Event :=
  [.call .disableSystemProxy,
   .exec ["networksetup", "-setsocksfirewallproxystate", "Wi-Fi", "off"],
   .exec ["networksetup", "-setsocksfirewallproxystate", "Ethernet", "off"],
   .print .proxiesDisabled]

/-! ## Validation: one goroutine per candidate (lines 179-204) -/

/-- A candidate together with what the outside world answers to its two probes:
    the reply to `isProxyWorking` and the reply to the `ping` command. -/
structure Job where
  prxy : Proxy
  reply : ProbeOutcome
  pong : PingOutcome
  deriving DecidableEq, Repr

/-- Where a probe goroutine stands in its body (lines 185-201). -/
inductive PC
  | probe    -- before `isProxyWorking(prxy)`, line 187
  | ping     -- before `getPing(prxy.IP)` and the test of line 189
  | lock     -- before `mu.Lock()`, line 191
  | load     -- holds `mu`; `append` is about to read `workingProxies`, line 192
  | store    -- holds `mu`; the appended slice is about to be written back, line 192
  | unlock   -- before `mu.Unlock()`, line 193
  | report   -- before the `Printf` of line 194
  | done     -- the deferred `wg.Done()` has run
  deriving DecidableEq, Repr

/-- The local state of one probe goroutine. -/
structure Worker where
  job : Job
  pc : PC
  prxy : Proxy
  snap : List Proxy
  deriving DecidableEq, Repr

/-- The shared state during validation. -/
structure VState where
  workers : List Worker
  mu : Bool
  workingProxies : List Proxy
  wg : Nat
  log : List Event
  deriving DecidableEq, Repr

/-- The state after the loop of lines 183-202 has started one goroutine per
    candidate; each has run `wg.Add(1)` and received its own copy of `prxy`. -/
def spawn (jobs : List Job) : VState :=
  { workers := jobs.map (fun j => { job := j, pc := .probe, prxy := j.prxy, snap := [] })
    mu := false
    workingProxies := []
    wg := jobs.length
    log := [] }

/-- One step of goroutine number `i`.  A goroutine that waits for the mutex, a
    finished goroutine and a number that names no goroutine leave the state as
    it is. -/
def step (ParseFloat : String → FloatParse) (i : Nat) (s : VState) : VState :=
  match s.workers.get? i with
  | none => s
  | some w =>
    match w.pc with
    | .probe =>
      let r := isProxyWorking w.prxy w.job.reply
      if r.2 then
        { s with workers := s.workers.set i { w with pc := .ping }, log := s.log ++ r.1 }
      else
        { s with workers := s.workers.set i { w with pc := .done }
                 wg := s.wg - 1
                 log := s.log ++ r.1 ++ [.print (.excludedDead w.prxy.IP w.prxy.Port)] }
    | .ping =>
      let r := getPing ParseFloat w.prxy.IP w.job.pong
      if r.2 ≠ -1 ∧ r.2 ≤ maxPing then
        { s with workers := s.workers.set i { w with pc := .lock, prxy := { w.prxy with Ping := r.2 } }
                 log := s.log ++ r.1 }
      else
        { s with workers := s.workers.set i { w with pc := .done }
                 wg := s.wg - 1
                 log := s.log ++ r.1 ++ [.print (.excludedPing w.prxy.IP w.prxy.Port)] }
    | .lock =>
      if s.mu then s
      else { s with mu := true, workers := s.workers.set i { w with pc := .load } }
    | .load =>
      { s with workers := s.workers.set i { w with pc := .store, snap := s.workingProxies } }
    | .store =>
      { s with workingProxies := w.snap ++ [w.prxy]
               workers := s.workers.set i { w with pc := .unlock } }
    | .unlock =>
      { s with mu := false, workers := s.workers.set i { w with pc := .report } }
    | .report =>
      { s with workers := s.workers.set i { w with pc := .done }
               wg := s.wg - 1
               log := s.log ++ [.print (.working w.prxy.IP w.prxy.Port)] }
    | .done => s

/-- Runs the goroutines in the order given by a schedule. -/
def runSched (ParseFloat : String → FloatParse) : List Nat → VState → VState
  | [], s => s
  | i :: sched, s => runSched ParseFloat sched (step ParseFloat i s)

/-- The decision of lines 187-190 for one candidate: the entry that is appended
    to `workingProxies`, or `none` when the candidate is excluded. -/
def verdict (ParseFloat : String → FloatParse) (j : Job) : Option Proxy :=
  if (isProxyWorking j.prxy j.reply).2 then
    let ping := (getPing ParseFloat j.prxy.IP j.pong).2
    if ping ≠ -1 ∧ ping ≤ maxPing then some { j.prxy with Ping := ping } else none
  else none

/-- The schedule that runs every goroutine to its end, one after the other. -/
def sequential : Nat → List Nat
  | 0 => []
  | n + 1 => sequential n ++ List.replicate 7 n

/-! ## The selection loop (lines 211-246) -/

/-- What one iteration of the loop obtains from outside: the line returned by
    `scanner.Text()`, the replies to the `getGeoInfo` calls of the listing (by
    position in the list), and the replies to the two calls inside
    `setSystemProxy`. -/
structure Inputs where
  line : String
  listGeo : Nat → GeoOutcome
  applyGeo : GeoOutcome
  applyPing : PingOutcome

/-- The listing loop of lines 217-220, started at position `i`. -/
def showList (listGeo : Nat → GeoOutcome) : Nat → List Proxy → List Event
  | _, [] => []
  | i, prxy :: rest =>
    let g := getGeoInfo prxy.IP prxy.Country "" (listGeo i)
    g.1 ++ [.print (.entry ((i : Int) + 1) prxy.IP prxy.Port g.2.1 prxy.Ping g.2.2)]
      ++ showList listGeo (i + 1) rest

/-- Indexing of a Go slice with an `int`: `none` stands for the run-time panic
    of an index out of range. -/
def sliceIndex (xs : List Proxy) (i : Int) : Option Proxy :=
  if i < 0 then none else xs.get? i.toNat

/-- The variables of `main` that live across iterations of the loop. -/
structure Selector where
  workingProxies : List Proxy
  selectedProxyIndex : Int
  deriving DecidableEq, Repr

/-- How an iteration of the loop ends. -/
inductive Control
  | next (s : Selector)
  | exited (code : Int)
  | panicked
  deriving DecidableEq, Repr

/-- One iteration of the `for` loop of lines 214-246. -/
def iteration (ParseFloat : String → FloatParse) (s : Selector) (inp : Inputs) :
    List Event × Control :=
  if s.selectedProxyIndex = -1 then
    let shown : List Event :=
      [.print .available] ++ showList inp.listGeo 0 s.workingProxies ++ [.print .choose, .scan]
    match Atoi inp.line with
    | none => (shown ++ [.print .invalidChoice], .next s)
    | some choice =>
      if choice < 1 ∨ choice > (s.workingProxies.length : Int) then
        (shown ++ [.print .invalidChoice], .next s)
      else
        match sliceIndex s.workingProxies (choice - 1) with
        | none => (shown, .panicked)
        | some selectedProxy =>
          (shown ++ setSystemProxy ParseFloat selectedProxy inp.applyGeo inp.applyPing
             ++ [.sleep 5],
           .next { s with selectedProxyIndex := choice - 1 })
  else
    let asked : List Event := [.print .changeOrExit, .scan]
    if inp.line = "change" then
      (asked ++ [.sleep 5], .next { s with selectedProxyIndex := -1 })
    else if inp.line = "exit" then
      (asked ++ disableSystemProxy ++ [.osExit 0], .exited 0)
    else
      (asked ++ [.sleep 5], .next s)

/-- The loop of lines 214-246, run for as many iterations as there are inputs. -/
def selectorLoop (ParseFloat : String → FloatParse) :
    Selector → List Inputs → List Event × Control
  | s, [] => ([], .next s)
  | s, inp :: rest =>
    match iteration ParseFloat s inp with
    | (es, .next s1) =>
      (es ++ (selectorLoop ParseFloat s1 rest).1, (selectorLoop ParseFloat s1 rest).2)
    | (es, c) => (es, c)

/-! ## The function `main` (lines 169-247) -/

/-- Pairs the fetched candidates with the replies to their probes, by position. -/
def mkJobs (reply : Nat → ProbeOutcome) (pong : Nat → PingOutcome) :
    Nat → List Proxy → List Job
  | _, [] => []
  | i, p :: ps => { prxy := p, reply := reply i, pong := pong i } :: mkJobs reply pong (i + 1) ps

/-- How far the main goroutine got. -/
inductive Ending
  | waiting                 -- `wg.Wait()` has not returned
  | returned                -- the `return` of line 208
  | loop (c : Control)      -- inside, or out of, the selection loop
  deriving DecidableEq, Repr

/-- The main goroutine: fetch, validation under a schedule of the probe
    goroutines, and the selection loop on the given inputs.  The signal
    goroutine of lines 172-176 is composed with it in `Proc`. -/
def main (ParseFloat : String → FloatParse) (fetch : FetchOutcome)
    (reply : Nat → ProbeOutcome) (pong : Nat → PingOutcome)
    (sched : List Nat) (inputs : List Inputs) : List Event × Ending :=
  let f := fetchProxyList fetch
  let allProxies := f.2
  let v := runSched ParseFloat sched (spawn (mkJobs reply pong 0 allProxies))
  if v.wg ≠ 0 then (f.1 ++ v.log, .waiting)
  else
    let workingProxies := v.workingProxies
    if workingProxies.length = 0 then (f.1 ++ v.log ++ [.print .noProxies], .returned)
    else
      let r := selectorLoop ParseFloat { workingProxies := workingProxies, selectedProxyIndex := -1 } inputs
      (f.1 ++ v.log ++ r.1, .loop r.2)

/-! ## The process: main goroutine and signal goroutine (lines 170-176) -/

/-- Who takes the next step: the main goroutine, the signal goroutine, or the
    operating system delivering an interrupt or termination signal. -/
inductive Actor
  | main
  | handler
  | signal
  deriving DecidableEq, Repr

/-- The body of the signal goroutine after `<-c` (lines 174-175). -/
def handlerBody : List Event := disableSystemProxy ++ [.osExit 0]

/-- The process.  `mainTodo` holds the effects the main goroutine still has to
    perform, `mainReturns` tells whether `main` returns after them, `chan` is
    the number of signals buffered in the channel `c` (its capacity is 1),
    `handlerTodo` is `none` while the signal goroutine waits on `<-c`. -/
structure Proc where
  mainTodo : List Event
  mainReturns : Bool
  chan : Nat
  handlerTodo : Option (List Event)
  exited : Bool
  log : List (Actor × Event)
  deriving DecidableEq, Repr

/-- Whether an effect ends the process. -/
def Event.isExit : Event → Bool
  | .osExit _ => true
  | _ => false

/-- The process at the start of a run in which the main goroutine is going to
    perform the given effects. -/
def boot (trace : List Event × Ending) : Proc :=
  { mainTodo := trace.1
    mainReturns := decide (trace.2 = .returned)
    chan := 0
    handlerTodo := none
    exited := false
    log := [] }

/-- One step of the process.  Nothing happens after the process has ended. -/
def Proc.step (p : Proc) (a : Actor) : Proc :=
  if p.exited then p
  else
    match a with
    | .signal => { p with chan := min 1 (p.chan + 1) }
    | .handler =>
      match p.handlerTodo with
      | none => if p.chan = 0 then p else { p with chan := p.chan - 1, handlerTodo := some handlerBody }
      | some [] => p
      | some (e :: es) =>
        { p with handlerTodo := some es, log := p.log ++ [(.handler, e)], exited := e.isExit }
    | .main =>
      match p.mainTodo with
      | [] => if p.mainReturns then { p with exited := true } else p
      | e :: es => { p with mainTodo := es, log := p.log ++ [(.main, e)], exited := e.isExit }

/-- Runs the process under a schedule. -/
def Proc.run : List Actor → Proc → Proc
  | [], p => p
  | a :: sched, p => Proc.run sched (p.step a)

/-- The number of times `disableSystemProxy` has been entered. -/
def disableCalls (log : List (Actor × Event)) : Nat :=
  (log.filter (fun x => decide (x.2 = .call .disableSystemProxy))).length

/-! ## Invariant of the validation phase -/

/-- Whether a goroutine is between `mu.Lock()` and `mu.Unlock()`. -/
def PC.inCS : PC → Bool
  | .load => true
  | .store => true
  | .unlock => true
  | _ => false

/-- The entry a goroutine has already written to `workingProxies`, if any. -/
def Worker.contributed (pf : String → FloatParse) (w : Worker) : Option Proxy :=
  match w.pc with
  | .unlock => some w.prxy
  | .report => some w.prxy
  | .done => verdict pf w.job
  | _ => none

/-- What the local variables of a goroutine hold at each point of its body. -/
def Worker.ok (pf : String → FloatParse) (w : Worker) : Prop :=
  match w.pc with
  | .probe => w.prxy = w.job.prxy
  | .ping => w.prxy = w.job.prxy ∧ (isProxyWorking w.job.prxy w.job.reply).2 = true
  | .done => True
  | _ => verdict pf w.job = some w.prxy

/-- The number of goroutines between `mu.Lock()` and `mu.Unlock()`. -/
def csCount : List Worker → Nat
  | [] => 0
  | w :: ws => (if w.pc.inCS then 1 else 0) + csCount ws

/-- The number of goroutines whose `wg.Done()` has not run. -/
def pending : List Worker → Nat
  | [] => 0
  | w :: ws => (if w.pc = .done then 0 else 1) + pending ws

/-- The number of steps a goroutine has at most left. -/
def PC.dist : PC → Nat
  | .probe => 7
  | .ping => 6
  | .lock => 5
  | .load => 4
  | .store => 3
  | .unlock => 2
  | .report => 1
  | .done => 0

/-- The invariant of the validation phase: the mutex is held by exactly the
    goroutines inside the critical section, a goroutine about to store has read the
    current slice, `workingProxies` holds the entries written so far, and the
    counter of the wait group is the number of unfinished goroutines. -/
structure Inv (pf : String → FloatParse) (jobs : List Job) (s : VState) : Prop where
  jobs : s.workers.map Worker.job = jobs
  ok : ∀ w ∈ s.workers, w.ok pf
  perm : s.workingProxies.Perm (s.workers.filterMap (Worker.contributed pf))
  cs : csCount s.workers = if s.mu then 1 else 0
  snap : ∀ w ∈ s.workers, w.pc = .store → w.snap = s.workingProxies
  wg : s.wg = pending s.workers

/-! ## Observations on traces -/

/-- Whether an effect is the entry of `setSystemProxy`. -/
def Event.isSetCall : Event → Bool
  | .call (.setSystemProxy _) => true
  | _ => false

/-- The number of times `setSystemProxy` is entered in a trace. -/
def setCalls (es : List Event) : Nat := es.countP Event.isSetCall

/-- Whether an effect is the entry of one of the two probes, `isProxyWorking`
    or `getPing`. -/
def Event.isProbeCall : Event → Bool
  | .call (.isProxyWorking _) => true
  | .call (.getPing _) => true
  | _ => false

/-- Whether an effect is one of those that only the selection loop and the signal
    goroutine perform: reading a line, entering `setSystemProxy` or
    `disableSystemProxy`, and `os.Exit`. -/
def Event.isControl : Event → Bool
  | .scan => true
  | .call (.setSystemProxy _) => true
  | .call .disableSystemProxy => true
  | .osExit _ => true
  | _ => false

/-- The part of an iteration in the state `selectedProxyIndex == -1` that comes
    before the line is examined: the listing, the prompt and the read. -/
def shown (inp : Inputs) (workingProxies : List Proxy) : List Event :=
  [.print .available] ++ showList inp.listGeo 0 workingProxies ++ [.print .choose, .scan]

/-! ## Concrete inputs -/

/-- The output of a `ping` run whose summary line reports the given average. -/
def pingReport (avg : String) : PingOutcome :=
  .output ("4 packets transmitted, 4 packets received, 0.0% packet loss\n"
    ++ "round-trip min/avg/max/stddev = 1.000/" ++ avg ++ "/900.000/0.500 ms\n")

/-- A candidate as fetched, with no measured ping yet. -/
def candidate (ip : String) : Proxy :=
  { IP := ip, Port := 1080, Country := "DE", ISP := "", Ping := 0 }

/-- Three usable candidates with average round-trip times 50, 250 and 150 ms. -/
def jobsB : List Job :=
  [ { prxy := candidate "10.0.0.1", reply := .response 200, pong := pingReport "50.200" },
    { prxy := candidate "10.0.0.2", reply := .response 200, pong := pingReport "250.900" },
    { prxy := candidate "10.0.0.3", reply := .response 200, pong := pingReport "150.000" } ]

/-- A schedule for three goroutines in which the third takes the mutex first
    and the first has to wait for it. -/
def schedB : List Nat := [0, 1, 2, 0, 1, 2, 2, 0, 2, 2, 2, 2, 0, 0, 0, 0, 0]

/-- Four candidates: the same proxy listed twice and accepted twice, one whose
    SOCKS5 dialer fails, and one whose `ping` command fails. -/
def jobsD : List Job :=
  [ { prxy := candidate "10.0.0.1", reply := .response 200, pong := pingReport "20.000" },
    { prxy := candidate "10.0.0.9", reply := .dialerErr, pong := pingReport "20.000" },
    { prxy := candidate "10.0.0.1", reply := .response 200, pong := pingReport "20.000" },
    { prxy := candidate "10.0.0.7", reply := .response 200, pong := .failed } ]

/-- A schedule for four goroutines that interleaves their steps. -/
def schedD : List Nat :=
  [3, 2, 1, 0, 3, 2, 0, 2, 0, 2, 2, 0, 2, 2, 0, 0, 0, 0, 0]

/-- A line typed by the user, with fixed replies of the outside world to the
    calls of that iteration. -/
def typed (line : String) : Inputs :=
  { line := line
    listGeo := fun _ => .ok "Germany" "Hetzner"
    applyGeo := .getErr
    applyPing := pingReport "33.000" }

/-- A result set of two entries. -/
def twoProxies : List Proxy :=
  [{ candidate "10.0.0.3" with Ping := 150 }, { candidate "10.0.0.1" with Ping := 50 }]

/-- Lines that are not valid choices at a listing of two proxies. -/
def invalidLines : List Inputs := [typed "abc", typed "0", typed "3", typed ""]

/-- The replies of the outside world in scenario B, by position of the
    candidate. -/
def pongB (i : Nat) : PingOutcome :=
  match i with
  | 0 => pingReport "50.200"
  | 1 => pingReport "250.900"
  | _ => pingReport "150.000"

/-- A session: an invalid line, the choice of the second proxy, "change", and
    the choice of the first proxy. -/
def session : List Inputs := [typed "abc", typed "2", typed "change", typed "1"]

/-- Two candidates that validation rejects: the first fails the SOCKS5 probe,
    the second is too slow. -/
def rejectedReply (i : Nat) : ProbeOutcome :=
  match i with
  | 0 => .dialerErr
  | _ => .response 200

/-- The output of BusyBox `ping`, whose summary line has three fields after the
    equals sign, so that its fifth `/`-separated field is "0.060 ms". -/
def busyboxReply : PingOutcome :=
  .output ("PING 10.0.0.5 (10.0.0.5): 56 data bytes\n"
    ++ "4 packets transmitted, 4 packets received, 0% packet loss\n"
    ++ "round-trip min/avg/max = 0.043/0.051/0.060 ms\n")

/-- Whether an effect is the entry of `disableSystemProxy` or a call of
    `os.Exit`. -/
def Event.isFinal : Event → Bool
  | .call .disableSystemProxy => true
  | .osExit _ => true
  | _ => false

/-- The effects one actor has performed, in order. -/
def eventsOf (a : Actor) (log : List (Actor × Event)) : List Event :=
  (log.filter (fun x => decide (x.1 = a))).map Prod.snd

/-- The number of entries of `disableSystemProxy` in a list of effects. -/
def disables (es : List Event) : Nat :=
  es.countP (fun e => decide (e = .call .disableSystemProxy))

/-- The shape of a trace of the main goroutine: effects that are neither an
    entry of `disableSystemProxy` nor an exit, followed or not by the exit path
    `disableSystemProxy(); os.Exit(0)`. -/
def Shape (T : List Event) : Prop :=
  ∃ pre, (∀ e ∈ pre, e.isFinal = false) ∧ (T = pre ∨ T = pre ++ handlerBody)

/-- The invariant of the process for a main goroutine whose sequential trace
    is `T`: each goroutine has performed a prefix of its own effects, the
    delivery of a signal performs none, and an exit can only be the last effect
    of the log. -/
structure Reach (T : List Event) (p : Proc) : Prop where
  main : eventsOf .main p.log ++ p.mainTodo = T
  handler : eventsOf .handler p.log ++ p.handlerTodo.getD [] = (if p.handlerTodo.isSome then handlerBody else [])
  signal : eventsOf .signal p.log = []
  live : p.exited = false → ∀ x ∈ p.log, x.2.isExit = false
  last : ∀ x ∈ p.log.dropLast, x.2.isExit = false

/-- A run of `main` in which the user chooses the only proxy and then types
    "exit". -/
def exitTrace : List Event × Ending :=
  main parseDecimal (.ok [candidate "10.0.0.1"]) (fun _ => .response 200)
    (fun _ => pingReport "50.200") (sequential 1) [typed "1", typed "exit"]

/-- A schedule in which a signal is delivered while the main goroutine is
    inside `disableSystemProxy` on the exit path: main performs its first 28
    effects (up to the first `networksetup` call of `disableSystemProxy`), then
    the signal arrives and the signal goroutine runs to its `os.Exit(0)`. -/
def raceSched : List Actor :=
  List.replicate 28 .main ++ [.signal] ++ List.replicate 6 .handler

/-- A schedule in which the signal arrives while the user is at the first
    prompt. -/
def calmSched : List Actor :=
  List.replicate 12 .main ++ [.signal] ++ List.replicate 6 .handler ++ [.main, .main]

/-- The number of steps the signal goroutine has at most left once a signal is
    in the channel: the receive and its body, or the rest of its body. -/
def handlerLeft (p : Proc) : Nat :=
  match p.handlerTodo with
  | none => 6
  | some es => es.length

/-- How a process that has ended did end: by an `os.Exit` that is in its log, or
    by the return of `main`. -/
def EndedBy (p : Proc) : Prop :=
  p.exited = true → (∃ x ∈ p.log, x.2.isExit = true) ∨ p.mainReturns = true

/-- A run of `main` in which both candidates are rejected, so that `main`
    returns at line 208. -/
def returnTrace : List Event × Ending :=
  main parseDecimal (.ok [candidate "10.0.0.1", candidate "10.0.0.2"]) rejectedReply pongB
    [0, 1, 1] session

/-- A schedule in which a signal is delivered during validation and the main
    goroutine then runs to its return before the signal goroutine takes a
    step. -/
def returnSched : List Actor :=
  List.replicate 4 .main ++ [.signal] ++ List.replicate 12 .main ++ List.replicate 6 .handler

/-! # Theorems -/

/-! ## Validation -/

theorem get?_split {α : Type} (l : List α) (i : Nat) (w : α) (h : l.get? i = some w) :
    ∃ l1 l2, l = l1 ++ w :: l2 ∧ l1.length = i ∧ ∀ w1, l.set i w1 = l1 ++ w1 :: l2 := by
  induction l generalizing i with
  | nil => simp at h
  | cons a l ih =>
    cases i with
    | zero =>
      simp at h
      subst h
      exact ⟨[], l, rfl, rfl, fun _ => rfl⟩
    | succ n =>
      simp at h
      obtain ⟨l1, l2, h1, h2, h3⟩ := ih n (by simpa using h)
      refine ⟨a :: l1, l2, by simp [h1], by simp [h2], fun w1 => ?_⟩
      simp [List.set, h3]

theorem forall_mem_replace {α : Type} {P : α → Prop} {l1 l2 : List α} {w w1 : α}
    (h : ∀ x ∈ l1 ++ w :: l2, P x) (h1 : P w1) : ∀ x ∈ l1 ++ w1 :: l2, P x := by
  intro x hx
  simp only [List.mem_append, List.mem_cons] at hx
  rcases hx with hx | rfl | hx
  · exact h x (by simp [hx])
  · exact h1
  · exact h x (by simp [hx])

theorem csCount_append (l1 l2 : List Worker) : csCount (l1 ++ l2) = csCount l1 + csCount l2 := by
  induction l1 with
  | nil => simp [csCount]
  | cons a l ih => simp [csCount, ih]; omega

theorem pending_append (l1 l2 : List Worker) : pending (l1 ++ l2) = pending l1 + pending l2 := by
  induction l1 with
  | nil => simp [pending]
  | cons a l ih => simp [pending, ih]; omega

theorem not_inCS_of_csCount {l : List Worker} (h : csCount l = 0) :
    ∀ x ∈ l, x.pc.inCS = false := by
  induction l with
  | nil => simp
  | cons a l ih =>
    intro x hx
    simp only [csCount] at h
    simp only [List.mem_cons] at hx
    rcases hx with rfl | hx
    · by_contra hc
      simp only [Bool.not_eq_false] at hc
      simp [hc] at h
    · exact ih (by omega) x hx

theorem step_inv (pf : String → FloatParse) (jobs : List Job) (i : Nat) (s : VState)
    (h : Inv pf jobs s) : Inv pf jobs (step pf i s) := by
  unfold step
  cases hg : s.workers.get? i with
  | none => simpa using h
  | some w =>
    obtain ⟨l1, l2, hl, -, hset⟩ := get?_split _ _ _ hg
    obtain ⟨workers, mu, wp, wg, log⟩ := s
    obtain ⟨hjobs, hok, hperm, hcs, hsnap, hwg⟩ := h
    simp only at hl hset hjobs hok hperm hcs hsnap hwg
    subst hl
    obtain ⟨job, pc, prxy, snap⟩ := w
    simp only [csCount_append, csCount, pending_append, pending] at hcs hwg
    cases pc
    · -- probe
      simp only [hset]
      have hok1 := hok ⟨job, .probe, prxy, snap⟩ (by simp)
      simp only [Worker.ok] at hok1
      subst hok1
      by_cases hw : (isProxyWorking job.prxy job.reply).2 = true
      · simp only [hw, if_true]
        refine ⟨by simpa using hjobs, forall_mem_replace hok (by simp [Worker.ok, hw]), ?_, ?_,
          forall_mem_replace hsnap (by simp), ?_⟩
        · simpa [List.filterMap_append, List.filterMap_cons, Worker.contributed] using hperm
        · simpa [csCount_append, csCount, PC.inCS] using hcs
        · simpa [pending_append, pending] using hwg
      · simp only [hw]
        refine ⟨by simpa using hjobs, forall_mem_replace hok (by simp [Worker.ok]), ?_, ?_,
          forall_mem_replace hsnap (by simp), ?_⟩
        · simpa [List.filterMap_append, List.filterMap_cons, Worker.contributed, verdict, hw]
            using hperm
        · simpa [csCount_append, csCount, PC.inCS] using hcs
        · simp [pending_append, pending] at hwg ⊢
          omega
    · -- ping
      simp only [hset]
      have hok1 := hok ⟨job, .ping, prxy, snap⟩ (by simp)
      simp only [Worker.ok] at hok1
      obtain ⟨hp, hw⟩ := hok1
      subst hp
      by_cases hc : (getPing pf job.prxy.IP job.pong).2 ≠ -1 ∧ (getPing pf job.prxy.IP job.pong).2 ≤ maxPing
      · simp only [hc, and_self, if_true, ne_eq, not_false_eq_true]
        refine ⟨by simpa using hjobs, forall_mem_replace hok (by simp [Worker.ok, verdict, hw, hc]), ?_, ?_,
          forall_mem_replace hsnap (by simp), ?_⟩
        · simpa [List.filterMap_append, List.filterMap_cons, Worker.contributed] using hperm
        · simpa [csCount_append, csCount, PC.inCS] using hcs
        · simpa [pending_append, pending] using hwg
      · simp only [hc, if_false]
        refine ⟨by simpa using hjobs, forall_mem_replace hok (by simp [Worker.ok]), ?_, ?_,
          forall_mem_replace hsnap (by simp), ?_⟩
        · simpa [List.filterMap_append, List.filterMap_cons, Worker.contributed, verdict, hw, hc]
            using hperm
        · simpa [csCount_append, csCount, PC.inCS] using hcs
        · simp [pending_append, pending] at hwg ⊢
          omega
    · -- lock
      cases mu with
      | true =>
        refine ⟨by simpa using hjobs, hok, hperm, ?_, hsnap, ?_⟩
        · simpa [csCount_append, csCount] using hcs
        · simpa [pending_append, pending] using hwg
      | false =>
        simp only [hset]
        have hok1 := hok ⟨job, .lock, prxy, snap⟩ (by simp)
        refine ⟨by simpa using hjobs, forall_mem_replace hok (by simpa [Worker.ok] using hok1), ?_, ?_,
          forall_mem_replace hsnap (by simp), ?_⟩
        · simpa [List.filterMap_append, List.filterMap_cons, Worker.contributed] using hperm
        · simp [csCount_append, csCount, PC.inCS] at hcs ⊢
          omega
        · simpa [pending_append, pending] using hwg
    · -- load
      simp only [hset]
      have hok1 := hok ⟨job, .load, prxy, snap⟩ (by simp)
      refine ⟨by simpa using hjobs, forall_mem_replace hok (by simpa [Worker.ok] using hok1), ?_, ?_,
        forall_mem_replace hsnap (by simp), ?_⟩
      · simpa [List.filterMap_append, List.filterMap_cons, Worker.contributed] using hperm
      · simpa [csCount_append, csCount, PC.inCS] using hcs
      · simpa [pending_append, pending] using hwg
    · -- store
      simp only [hset]
      have hok1 := hok ⟨job, .store, prxy, snap⟩ (by simp)
      have hs1 := hsnap ⟨job, .store, prxy, snap⟩ (by simp) rfl
      simp only at hs1
      subst hs1
      have hmu : mu = true := by
        cases mu with
        | true => rfl
        | false => simp [PC.inCS] at hcs
      subst hmu
      have h1 : csCount l1 = 0 := by simp [PC.inCS] at hcs; omega
      have h2 : csCount l2 = 0 := by simp [PC.inCS] at hcs; omega
      refine ⟨by simpa using hjobs, forall_mem_replace hok (by simpa [Worker.ok] using hok1), ?_, ?_, ?_, ?_⟩
      · simp only [List.filterMap_append, List.filterMap_cons, Worker.contributed] at hperm ⊢
        exact (List.perm_append_singleton _ _).trans
          ((List.Perm.cons _ hperm).trans List.perm_middle.symm)
      · simp [csCount_append, csCount, PC.inCS, h1, h2]
      · intro x hx hpc
        simp only [List.mem_append, List.mem_cons] at hx
        rcases hx with hx | rfl | hx
        · have := not_inCS_of_csCount h1 x hx
          simp [hpc, PC.inCS] at this
        · simp at hpc
        · have := not_inCS_of_csCount h2 x hx
          simp [hpc, PC.inCS] at this
      · simpa [pending_append, pending] using hwg
    · -- unlock
      simp only [hset]
      have hok1 := hok ⟨job, .unlock, prxy, snap⟩ (by simp)
      have h1 : csCount l1 = 0 := by
        cases mu <;> simp [PC.inCS] at hcs
        omega
      have h2 : csCount l2 = 0 := by
        cases mu <;> simp [PC.inCS] at hcs
        omega
      refine ⟨by simpa using hjobs, forall_mem_replace hok (by simpa [Worker.ok] using hok1), ?_, ?_,
        forall_mem_replace hsnap (by simp), ?_⟩
      · simpa [List.filterMap_append, List.filterMap_cons, Worker.contributed] using hperm
      · simp [csCount_append, csCount, PC.inCS, h1, h2]
      · simpa [pending_append, pending] using hwg
    · -- report
      simp only [hset]
      have hok1 := hok ⟨job, .report, prxy, snap⟩ (by simp)
      simp only [Worker.ok] at hok1
      refine ⟨by simpa using hjobs, forall_mem_replace hok (by simp [Worker.ok]), ?_, ?_,
        forall_mem_replace hsnap (by simp), ?_⟩
      · simpa [List.filterMap_append, List.filterMap_cons, Worker.contributed, hok1] using hperm
      · simpa [csCount_append, csCount, PC.inCS] using hcs
      · simp [pending_append, pending] at hwg ⊢
        omega
    · -- done
      refine ⟨by simpa using hjobs, hok, hperm, ?_, hsnap, ?_⟩
      · simpa [csCount_append, csCount] using hcs
      · simpa [pending_append, pending] using hwg

theorem spawn_inv (pf : String → FloatParse) (jobs : List Job) : Inv pf jobs (spawn jobs) := by
  refine ⟨?_, ?_, ?_, ?_, ?_, ?_⟩
  · simp [spawn, Function.comp_def]
  · intro w hw
    simp only [spawn, List.mem_map] at hw
    obtain ⟨j, -, rfl⟩ := hw
    simp [Worker.ok]
  · simp only [spawn]
    induction jobs with
    | nil => simp
    | cons j js ih => simp [List.filterMap_cons, Worker.contributed]
  · simp only [spawn]
    induction jobs with
    | nil => simp [csCount]
    | cons j js ih => simpa [csCount, PC.inCS] using ih
  · intro w hw
    simp only [spawn, List.mem_map] at hw
    obtain ⟨j, -, rfl⟩ := hw
    simp
  · simp only [spawn]
    induction jobs with
    | nil => simp [pending]
    | cons j js ih => simp [pending] at ih ⊢; omega

theorem runSched_inv (pf : String → FloatParse) (jobs : List Job) (sched : List Nat) :
    ∀ s, Inv pf jobs s → Inv pf jobs (runSched pf sched s) := by
  induction sched with
  | nil => intro s h; exact h
  | cons i sched ih => intro s h; exact ih _ (step_inv pf jobs i s h)

theorem contributed_of_pending (pf : String → FloatParse) (l : List Worker) (h : pending l = 0) :
    l.filterMap (Worker.contributed pf) = (l.map Worker.job).filterMap (verdict pf) := by
  induction l with
  | nil => rfl
  | cons w l ih =>
    simp only [pending] at h
    have hd : w.pc = .done := by
      by_contra hc
      simp [hc] at h
    have hl : pending l = 0 := by omega
    simp [List.filterMap_cons, Worker.contributed, hd, ih hl]

theorem validation_perm (pf : String → FloatParse) (jobs : List Job) (sched : List Nat)
    (hbar : (runSched pf sched (spawn jobs)).wg = 0) :
    (runSched pf sched (spawn jobs)).workingProxies.Perm (jobs.filterMap (verdict pf)) := by
  have hinv := runSched_inv pf jobs sched _ (spawn_inv pf jobs)
  have hp : pending (runSched pf sched (spawn jobs)).workers = 0 := by
    rw [← hinv.wg]; exact hbar
  have h1 := contributed_of_pending pf _ hp
  rw [hinv.jobs] at h1
  rw [← h1]
  exact hinv.perm


theorem runSched_append (pf : String → FloatParse) (a b : List Nat) (s : VState) :
    runSched pf (a ++ b) s = runSched pf b (runSched pf a s) := by
  induction a generalizing s with
  | nil => rfl
  | cons i a ih => simp [runSched, ih]

theorem get?_middle {α : Type} (l1 l2 : List α) (w : α) :
    (l1 ++ w :: l2).get? l1.length = some w := by
  induction l1 with
  | nil => rfl
  | cons a l ih => simpa using ih

theorem set_middle {α : Type} (l1 l2 : List α) (w w1 : α) :
    (l1 ++ w :: l2).set l1.length w1 = l1 ++ w1 :: l2 := by
  induction l1 with
  | nil => rfl
  | cons a l ih => simp [List.set, ih]

theorem step_progress (pf : String → FloatParse) (l1 l2 : List Worker) (w : Worker) (s : VState)
    (hw : s.workers = l1 ++ w :: l2) (hfree : w.pc.inCS = false → s.mu = false) :
    ∃ w1, (step pf l1.length s).workers = l1 ++ w1 :: l2
      ∧ (w1.pc.inCS = false → (step pf l1.length s).mu = false)
      ∧ w1.pc.dist ≤ w.pc.dist - 1 := by
  obtain ⟨workers, mu, wp, wg, log⟩ := s
  simp only at hw hfree
  subst hw
  obtain ⟨job, pc, prxy, snap⟩ := w
  unfold step
  simp only [get?_middle, set_middle]
  cases pc
  · by_cases h : (isProxyWorking prxy job.reply).2 = true
    · refine ⟨⟨job, .ping, prxy, snap⟩, by simp only [h, if_true], ?_, by simp [PC.dist]⟩
      simpa [h, PC.inCS] using hfree
    · refine ⟨⟨job, .done, prxy, snap⟩, by simp only [h]; rfl, ?_, by simp [PC.dist]⟩
      simpa [h, PC.inCS] using hfree
  · by_cases h : (getPing pf prxy.IP job.pong).2 ≠ -1 ∧ (getPing pf prxy.IP job.pong).2 ≤ maxPing
    · refine ⟨⟨job, .lock, { prxy with Ping := (getPing pf prxy.IP job.pong).2 }, snap⟩,
        by simp only [h, and_self, if_true, ne_eq, not_false_eq_true], ?_, by simp [PC.dist]⟩
      simpa [h, PC.inCS] using hfree
    · refine ⟨⟨job, .done, prxy, snap⟩, by simp only [h, if_false], ?_, by simp [PC.dist]⟩
      simpa [h, PC.inCS] using hfree
  · have hm : mu = false := hfree rfl
    subst hm
    exact ⟨_, rfl, by simp [PC.inCS], by simp [PC.dist]⟩
  · exact ⟨_, rfl, by simp [PC.inCS], by simp [PC.dist]⟩
  · exact ⟨_, rfl, by simp [PC.inCS], by simp [PC.dist]⟩
  · exact ⟨_, rfl, by simp [PC.inCS], by simp [PC.dist]⟩
  · exact ⟨_, rfl, by simpa [PC.inCS] using hfree, by simp [PC.dist]⟩
  · exact ⟨_, rfl, by simpa [PC.inCS] using hfree, by simp [PC.dist]⟩

theorem run_worker (pf : String → FloatParse) (l1 l2 : List Worker) :
    ∀ (k : Nat) (w : Worker) (s : VState), s.workers = l1 ++ w :: l2 →
      (w.pc.inCS = false → s.mu = false) → w.pc.dist ≤ k →
      ∃ w1, (runSched pf (List.replicate k l1.length) s).workers = l1 ++ w1 :: l2
        ∧ (runSched pf (List.replicate k l1.length) s).mu = false ∧ w1.pc = .done := by
  intro k
  induction k with
  | zero =>
    intro w s hw hfree hd
    have hdone : w.pc = .done := by
      cases hpc : w.pc <;> simp [hpc, PC.dist] at hd
      rfl
    exact ⟨w, hw, hfree (by rw [hdone]; rfl), hdone⟩
  | succ k ih =>
    intro w s hw hfree hd
    obtain ⟨w1, h1, h2, h3⟩ := step_progress pf l1 l2 w s hw hfree
    simp only [List.replicate_succ, runSched]
    exact ih w1 _ h1 h2 (by omega)

theorem sequential_done (pf : String → FloatParse) (jobs : List Job) :
    ∀ n, n ≤ jobs.length →
      ∃ D, (runSched pf (sequential n) (spawn jobs)).workers = D ++ (spawn jobs).workers.drop n
        ∧ D.length = n ∧ pending D = 0
        ∧ (runSched pf (sequential n) (spawn jobs)).mu = false := by
  intro n
  induction n with
  | zero => intro _; exact ⟨[], by simp [sequential, runSched], rfl, rfl, rfl⟩
  | succ n ih =>
    intro hn
    obtain ⟨D, hD, hlen, hpend, hmu⟩ := ih (by omega)
    have hlt : n < (spawn jobs).workers.length := by simp [spawn]; omega
    have hdrop : (spawn jobs).workers.drop n
        = (spawn jobs).workers.get ⟨n, hlt⟩ :: (spawn jobs).workers.drop (n + 1) := by
      simp
    rw [hdrop] at hD
    have hpc : ((spawn jobs).workers.get ⟨n, hlt⟩).pc = .probe := by
      simp [spawn]
    obtain ⟨w1, h1, h2, h3⟩ := run_worker pf D _ 7 _ _ hD (fun _ => hmu)
      (by rw [hpc]; simp [PC.dist])
    rw [hlen] at h1 h2
    refine ⟨D ++ [w1], ?_, by simp [hlen], ?_, ?_⟩
    · simp only [sequential, runSched_append]
      simpa using h1
    · simp [pending_append, pending, hpend, h3]
    · simp only [sequential, runSched_append]
      exact h2

theorem sequential_barrier (pf : String → FloatParse) (jobs : List Job) :
    (runSched pf (sequential jobs.length) (spawn jobs)).wg = 0 := by
  obtain ⟨D, hD, -, hpend, -⟩ := sequential_done pf jobs jobs.length (le_refl _)
  have hinv := runSched_inv pf jobs (sequential jobs.length) _ (spawn_inv pf jobs)
  rw [hinv.wg, hD]
  have : (spawn jobs).workers.drop jobs.length = [] := by simp [spawn]
  simp [this, hpend]

theorem mem_verdict_iff (pf : String → FloatParse) (jobs : List Job) (p : Proxy) :
    p ∈ jobs.filterMap (verdict pf) ↔
      ∃ j ∈ jobs, (isProxyWorking j.prxy j.reply).2 = true
        ∧ (getPing pf j.prxy.IP j.pong).2 ≠ -1
        ∧ (getPing pf j.prxy.IP j.pong).2 ≤ maxPing
        ∧ p = { j.prxy with Ping := (getPing pf j.prxy.IP j.pong).2 } := by
  simp only [List.mem_filterMap, verdict]
  constructor
  · rintro ⟨j, hj, h⟩
    by_cases hw : (isProxyWorking j.prxy j.reply).2 = true
    · by_cases hc : (getPing pf j.prxy.IP j.pong).2 ≠ -1 ∧ (getPing pf j.prxy.IP j.pong).2 ≤ maxPing
      · simp only [hw, hc, and_self, if_true, ne_eq, not_false_eq_true, Option.some.injEq] at h
        exact ⟨j, hj, hw, hc.1, hc.2, h.symm⟩
      · simp [hw, hc] at h
    · simp [hw] at h
  · rintro ⟨j, hj, hw, h1, h2, rfl⟩
    exact ⟨j, hj, by simp [hw, h1, h2]⟩

theorem length_filterMap_verdict (pf : String → FloatParse) (jobs : List Job) :
    (jobs.filterMap (verdict pf)).length = jobs.countP (fun j => (verdict pf j).isSome) := by
  induction jobs with
  | nil => rfl
  | cons j js ih =>
    cases h : verdict pf j with
    | none => simp [List.filterMap_cons, h, ih]
    | some p => simp [List.filterMap_cons, h, ih]

/-- C1: after the barrier `wg.Wait()`, under every schedule of the probe
    goroutines and every assignment of probe replies, an entry is in
    `workingProxies` if and only if it is a candidate whose `isProxyWorking`
    result is true and whose measured ping is not -1 and at most `maxPing`,
    stored with that ping. -/
theorem accepted_iff_usable_and_fast (pf : String → FloatParse) (jobs : List Job)
    (sched : List Nat) (hbar : (runSched pf sched (spawn jobs)).wg = 0) (p : Proxy) :
    p ∈ (runSched pf sched (spawn jobs)).workingProxies ↔
      ∃ j ∈ jobs, (isProxyWorking j.prxy j.reply).2 = true
        ∧ (getPing pf j.prxy.IP j.pong).2 ≠ -1
        ∧ (getPing pf j.prxy.IP j.pong).2 ≤ maxPing
        ∧ p = { j.prxy with Ping := (getPing pf j.prxy.IP j.pong).2 } := by
  rw [(validation_perm pf jobs sched hbar).mem_iff]
  exact mem_verdict_iff pf jobs p

/-- Scenario B: the schedule `schedB` reaches the barrier on `jobsB`, the entry
    of the candidate with ping 250 is characterised as excluded, and the result
    holds exactly the candidates with pings 150 and 50, in completion order. -/
theorem accepted_iff_usable_and_fast_witness :
    (runSched parseDecimal schedB (spawn jobsB)).wg = 0
    ∧ (({ candidate "10.0.0.2" with Ping := 250 } : Proxy)
          ∈ (runSched parseDecimal schedB (spawn jobsB)).workingProxies ↔
        ∃ j ∈ jobsB, (isProxyWorking j.prxy j.reply).2 = true
          ∧ (getPing parseDecimal j.prxy.IP j.pong).2 ≠ -1
          ∧ (getPing parseDecimal j.prxy.IP j.pong).2 ≤ maxPing
          ∧ ({ candidate "10.0.0.2" with Ping := 250 } : Proxy)
              = { j.prxy with Ping := (getPing parseDecimal j.prxy.IP j.pong).2 })
    ∧ (runSched parseDecimal schedB (spawn jobsB)).workingProxies
        = [{ candidate "10.0.0.3" with Ping := 150 }, { candidate "10.0.0.1" with Ping := 50 }] :=
  ⟨by decide, accepted_iff_usable_and_fast parseDecimal jobsB schedB (by decide) _, by decide⟩

/-- C2: after the barrier, under every schedule, `workingProxies` is a
    permutation of the entries of the accepted candidates taken with their
    multiplicity, so its length is the number of accepted candidates: every
    accepted occurrence is appended exactly once.  The barrier is reached, for
    instance by the schedule that runs the goroutines one after the other. -/
theorem appended_exactly_once (pf : String → FloatParse) (jobs : List Job)
    (sched : List Nat) (hbar : (runSched pf sched (spawn jobs)).wg = 0) :
    (runSched pf sched (spawn jobs)).workingProxies.Perm (jobs.filterMap (verdict pf))
    ∧ (runSched pf sched (spawn jobs)).workingProxies.length
        = jobs.countP (fun j => (verdict pf j).isSome)
    ∧ (∀ p, (runSched pf sched (spawn jobs)).workingProxies.count p
        = (jobs.filterMap (verdict pf)).count p)
    ∧ (runSched pf (sequential jobs.length) (spawn jobs)).wg = 0 := by
  have h := validation_perm pf jobs sched hbar
  exact ⟨h, by rw [h.length_eq, length_filterMap_verdict], fun p => h.count_eq p,
    sequential_barrier pf jobs⟩

/-- On `jobsD` under `schedD` the barrier is reached and the proxy that is
    listed twice is appended twice, the two rejected candidates never. -/
theorem appended_exactly_once_witness :
    (runSched parseDecimal schedD (spawn jobsD)).wg = 0
    ∧ ((runSched parseDecimal schedD (spawn jobsD)).workingProxies.Perm
          (jobsD.filterMap (verdict parseDecimal))
      ∧ (runSched parseDecimal schedD (spawn jobsD)).workingProxies.length
          = jobsD.countP (fun j => (verdict parseDecimal j).isSome)
      ∧ (∀ p, (runSched parseDecimal schedD (spawn jobsD)).workingProxies.count p
          = (jobsD.filterMap (verdict parseDecimal)).count p)
      ∧ (runSched parseDecimal (sequential jobsD.length) (spawn jobsD)).wg = 0)
    ∧ (runSched parseDecimal schedD (spawn jobsD)).workingProxies
        = [{ candidate "10.0.0.1" with Ping := 20 }, { candidate "10.0.0.1" with Ping := 20 }] :=
  ⟨by decide, appended_exactly_once parseDecimal jobsD schedD (by decide), by decide⟩

/-! ## The selection loop -/

theorem getGeoInfo_events (ip dc di : String) (o : GeoOutcome) :
    ∀ e ∈ (getGeoInfo ip dc di o).1,
      e.isSetCall = false ∧ e.isProbeCall = false ∧ e.isControl = false ∧ e.isExit = false
        ∧ e ≠ .call .disableSystemProxy := by
  intro e he
  cases o <;> simp [getGeoInfo] at he <;> rcases he with rfl | rfl | rfl | rfl <;>
    simp [Event.isSetCall, Event.isProbeCall, Event.isControl, Event.isExit]

theorem showList_events (geo : Nat → GeoOutcome) (l : List Proxy) :
    ∀ i, ∀ e ∈ showList geo i l,
      e.isSetCall = false ∧ e.isProbeCall = false ∧ e.isExit = false
        ∧ e ≠ .call .disableSystemProxy := by
  induction l with
  | nil => intro i e he; simp [showList] at he
  | cons p l ih =>
    intro i e he
    simp only [showList, List.mem_append, List.mem_singleton] at he
    rcases he with (he | rfl) | he
    · have := getGeoInfo_events _ _ _ _ e he
      exact ⟨this.1, this.2.1, this.2.2.2.1, this.2.2.2.2⟩
    · simp [Event.isSetCall, Event.isProbeCall, Event.isExit]
    · exact ih _ e he

theorem shown_events (inp : Inputs) (l : List Proxy) :
    ∀ e ∈ shown inp l,
      e.isSetCall = false ∧ e.isProbeCall = false ∧ e.isExit = false
        ∧ e ≠ .call .disableSystemProxy := by
  intro e he
  simp only [shown, List.mem_append, List.mem_singleton, List.mem_cons, List.not_mem_nil,
    or_false] at he
  rcases he with (rfl | he) | rfl | rfl
  · simp [Event.isSetCall, Event.isProbeCall, Event.isExit]
  · exact showList_events _ _ _ e he
  · simp [Event.isSetCall, Event.isProbeCall, Event.isExit]
  · simp [Event.isSetCall, Event.isProbeCall, Event.isExit]

theorem setCalls_append (a b : List Event) : setCalls (a ++ b) = setCalls a + setCalls b := by
  simp [setCalls, List.countP_append]

theorem setCalls_shown (inp : Inputs) (l : List Proxy) : setCalls (shown inp l) = 0 := by
  simp only [setCalls, List.countP_eq_zero]
  intro e he
  simp [(shown_events inp l e he).1]

theorem iteration_invalid (pf : String → FloatParse) (s : Selector) (inp : Inputs)
    (hun : s.selectedProxyIndex = -1)
    (hbad : ∀ k, Atoi inp.line = some k → k < 1 ∨ k > (s.workingProxies.length : Int)) :
    iteration pf s inp = (shown inp s.workingProxies ++ [.print .invalidChoice], .next s) := by
  unfold iteration
  simp only [hun, if_true]
  cases h : Atoi inp.line with
  | none => rfl
  | some k => simp only [hbad k h, if_true]; rfl

/-- C5: in the state `selectedProxyIndex == -1`, a line that `Atoi` rejects or
    whose number lies outside `[1, len(workingProxies)]` ends the iteration with
    the same variables (still unchosen, `workingProxies` unchanged), without a
    panic and without entering `setSystemProxy`; the next iteration lists the
    proxies and prompts again. -/
theorem invalid_choice_reprompts (pf : String → FloatParse) (s : Selector) (inp : Inputs)
    (hun : s.selectedProxyIndex = -1)
    (hbad : ∀ k, Atoi inp.line = some k → k < 1 ∨ k > (s.workingProxies.length : Int)) :
    iteration pf s inp = (shown inp s.workingProxies ++ [.print .invalidChoice], .next s)
    ∧ setCalls (iteration pf s inp).1 = 0
    ∧ ∀ next : Inputs, ∃ rest,
        (iteration pf s next).1 = shown next s.workingProxies ++ rest := by
  have h := iteration_invalid pf s inp hun hbad
  refine ⟨h, ?_, ?_⟩
  · rw [h]
    simp only [setCalls_append, setCalls_shown]
    rfl
  · intro next
    unfold iteration
    simp only [hun, if_true]
    cases Atoi next.line with
    | none => exact ⟨_, rfl⟩
    | some k =>
      by_cases hk : k < 1 ∨ k > (s.workingProxies.length : Int)
      · simp only [hk, if_true]; exact ⟨_, rfl⟩
      · simp only [hk, if_false]
        cases sliceIndex s.workingProxies (k - 1) with
        | none => exact ⟨[], by simp [shown]⟩
        | some p => exact ⟨_, by simp only [shown, List.append_assoc]; rfl⟩

/-- The line "abc" typed at the listing of `twoProxies` is such an invalid
    choice. -/
theorem invalid_choice_reprompts_witness :
    (({ workingProxies := twoProxies, selectedProxyIndex := -1 } : Selector).selectedProxyIndex = -1
      ∧ ∀ k, Atoi (typed "abc").line = some k → k < 1 ∨ k > (twoProxies.length : Int))
    ∧ (iteration parseDecimal { workingProxies := twoProxies, selectedProxyIndex := -1 } (typed "abc")
          = (shown (typed "abc") twoProxies ++ [.print .invalidChoice],
             .next { workingProxies := twoProxies, selectedProxyIndex := -1 })
      ∧ setCalls (iteration parseDecimal { workingProxies := twoProxies, selectedProxyIndex := -1 }
          (typed "abc")).1 = 0
      ∧ ∀ next : Inputs, ∃ rest,
          (iteration parseDecimal { workingProxies := twoProxies, selectedProxyIndex := -1 } next).1
            = shown next twoProxies ++ rest) :=
  ⟨⟨rfl, fun _ h =>
      Option.noConfusion ((show Atoi (typed "abc").line = none by decide).symm.trans h)⟩,
   invalid_choice_reprompts parseDecimal { workingProxies := twoProxies, selectedProxyIndex := -1 }
     (typed "abc") rfl (fun _ h =>
      Option.noConfusion ((show Atoi (typed "abc").line = none by decide).symm.trans h))⟩

theorem setCalls_setSystemProxy (pf : String → FloatParse) (p : Proxy) (g : GeoOutcome)
    (q : PingOutcome) : setCalls (setSystemProxy pf p g q) = 1 := by
  cases g <;> cases q <;> rfl

theorem sliceIndex_in_range (xs : List Proxy) (k : Int) (h1 : 1 ≤ k)
    (h2 : k ≤ (xs.length : Int)) :
    ∃ h : (k - 1).toNat < xs.length, sliceIndex xs (k - 1) = some (xs.get ⟨(k - 1).toNat, h⟩) := by
  have h : (k - 1).toNat < xs.length := by omega
  refine ⟨h, ?_⟩
  unfold sliceIndex
  have h0 : ¬ (k - 1 < 0) := by omega
  simp only [h0, if_false]
  exact List.get?_eq_get h

/-- C6: in the state `selectedProxyIndex == -1`, a line that `Atoi` reads as a
    number `k` with `1 <= k <= len(workingProxies)` selects the entry at index
    `k-1`, which is in bounds (no panic); `setSystemProxy` is entered exactly
    once, with that entry, and the iteration ends with
    `selectedProxyIndex = k-1` and `workingProxies` unchanged. -/
theorem valid_choice_applies_entry (pf : String → FloatParse) (s : Selector) (inp : Inputs)
    (k : Int) (hun : s.selectedProxyIndex = -1) (hk : Atoi inp.line = some k)
    (h1 : 1 ≤ k) (h2 : k ≤ (s.workingProxies.length : Int)) :
    ∃ h : (k - 1).toNat < s.workingProxies.length,
      0 ≤ k - 1
      ∧ iteration pf s inp
          = (shown inp s.workingProxies
               ++ setSystemProxy pf (s.workingProxies.get ⟨(k - 1).toNat, h⟩) inp.applyGeo
                    inp.applyPing
               ++ [.sleep 5],
             .next { s with selectedProxyIndex := k - 1 })
      ∧ setCalls (iteration pf s inp).1 = 1
      ∧ Event.call (.setSystemProxy (s.workingProxies.get ⟨(k - 1).toNat, h⟩))
          ∈ (iteration pf s inp).1 := by
  obtain ⟨h, hs⟩ := sliceIndex_in_range s.workingProxies k h1 h2
  have hit : iteration pf s inp
      = (shown inp s.workingProxies
           ++ setSystemProxy pf (s.workingProxies.get ⟨(k - 1).toNat, h⟩) inp.applyGeo
                inp.applyPing
           ++ [.sleep 5],
         .next { s with selectedProxyIndex := k - 1 }) := by
    unfold iteration
    have hr : ¬ (k < 1 ∨ k > (s.workingProxies.length : Int)) := by omega
    simp only [hun, if_true, hk, hr, if_false, hs]
    rfl
  refine ⟨h, by omega, hit, ?_, ?_⟩
  · rw [hit]
    simp only [setCalls_append, setCalls_shown, setCalls_setSystemProxy]
    rfl
  · rw [hit]
    simp [setSystemProxy]

/-- The line "2" typed at the listing of `twoProxies` applies its second
    entry. -/
theorem valid_choice_applies_entry_witness :
    (({ workingProxies := twoProxies, selectedProxyIndex := -1 } : Selector).selectedProxyIndex = -1
      ∧ Atoi (typed "2").line = some 2 ∧ (1 : Int) ≤ 2 ∧ (2 : Int) ≤ (twoProxies.length : Int))
    ∧ ∃ h : ((2 : Int) - 1).toNat < twoProxies.length,
      (0 : Int) ≤ 2 - 1
      ∧ iteration parseDecimal { workingProxies := twoProxies, selectedProxyIndex := -1 } (typed "2")
          = (shown (typed "2") twoProxies
               ++ setSystemProxy parseDecimal (twoProxies.get ⟨((2 : Int) - 1).toNat, h⟩)
                    (typed "2").applyGeo (typed "2").applyPing
               ++ [.sleep 5],
             .next { workingProxies := twoProxies, selectedProxyIndex := 2 - 1 })
      ∧ setCalls (iteration parseDecimal { workingProxies := twoProxies, selectedProxyIndex := -1 }
          (typed "2")).1 = 1
      ∧ Event.call (.setSystemProxy (twoProxies.get ⟨((2 : Int) - 1).toNat, h⟩))
          ∈ (iteration parseDecimal { workingProxies := twoProxies, selectedProxyIndex := -1 }
              (typed "2")).1 :=
  ⟨⟨rfl, by decide, by decide, by decide⟩,
   valid_choice_applies_entry parseDecimal { workingProxies := twoProxies, selectedProxyIndex := -1 }
     (typed "2") 2 rfl (by decide) (by decide) (by decide)⟩

theorem iteration_change (pf : String → FloatParse) (s : Selector) (inp : Inputs)
    (hch : s.selectedProxyIndex ≠ -1) (hline : inp.line = "change") :
    iteration pf s inp
      = ([.print .changeOrExit, .scan, .sleep 5], .next { s with selectedProxyIndex := -1 }) := by
  unfold iteration
  simp only [hch, if_false, hline, if_true]
  rfl

theorem loop_invalid (pf : String → FloatParse) (s : Selector) (hun : s.selectedProxyIndex = -1) :
    ∀ rest : List Inputs,
      (∀ r ∈ rest, ∀ k, Atoi r.line = some k → k < 1 ∨ k > (s.workingProxies.length : Int)) →
      (selectorLoop pf s rest).2 = .next s
      ∧ setCalls (selectorLoop pf s rest).1 = 0
      ∧ ∀ e ∈ (selectorLoop pf s rest).1, e.isProbeCall = false := by
  intro rest
  induction rest with
  | nil => intro _; exact ⟨rfl, rfl, by simp [selectorLoop]⟩
  | cons r rest ih =>
    intro hbad
    have hr := iteration_invalid pf s r hun (hbad r (by simp))
    obtain ⟨i1, i2, i3⟩ := ih (fun x hx => hbad x (by simp [hx]))
    simp only [selectorLoop, hr]
    refine ⟨i1, ?_, ?_⟩
    · simp only [setCalls_append, setCalls_shown, i2]
      rfl
    · intro e he
      simp only [List.mem_append, List.mem_singleton] at he
      rcases he with (he | rfl) | he
      · exact (shown_events r s.workingProxies e he).2.1
      · rfl
      · exact i3 e he

theorem setCalls_iteration_pos (pf : String → FloatParse) (s : Selector) (inp : Inputs)
    (h : 0 < setCalls (iteration pf s inp).1) :
    s.selectedProxyIndex = -1
      ∧ ∃ k, Atoi inp.line = some k ∧ 1 ≤ k ∧ k ≤ (s.workingProxies.length : Int) := by
  by_cases hun : s.selectedProxyIndex = -1
  · refine ⟨hun, ?_⟩
    by_contra hno
    have hbad : ∀ k, Atoi inp.line = some k → k < 1 ∨ k > (s.workingProxies.length : Int) := by
      intro k hk
      by_contra hc
      exact hno ⟨k, hk, by omega, by omega⟩
    rw [iteration_invalid pf s inp hun hbad] at h
    simp only [setCalls_append, setCalls_shown] at h
    exact absurd h (by decide)
  · exfalso
    unfold iteration at h
    simp only [hun, if_false] at h
    by_cases h1 : inp.line = "change"
    · rw [if_pos h1] at h
      simp only at h
      exact absurd h (by decide)
    · by_cases h2 : inp.line = "exit"
      · rw [if_neg h1, if_pos h2] at h
        exact absurd h (by decide)
      · rw [if_neg h1, if_neg h2] at h
        simp only at h
        exact absurd h (by decide)

/-- C7: with a proxy chosen (`selectedProxyIndex >= 0`), the line "change"
    sets `selectedProxyIndex` to -1 and leaves `workingProxies` as it is; the
    iteration only prompts, reads and sleeps.  As long as the lines that follow
    are not valid choices, the loop stays unchosen and enters neither
    `setSystemProxy` nor a probe; and any iteration that enters
    `setSystemProxy` is one in the unchosen state whose line is a number in
    `[1, len(workingProxies)]`. -/
theorem change_returns_to_unchosen (pf : String → FloatParse) (s : Selector) (inp : Inputs)
    (rest : List Inputs) (hch : 0 ≤ s.selectedProxyIndex) (hline : inp.line = "change")
    (hbad : ∀ r ∈ rest, ∀ k, Atoi r.line = some k → k < 1 ∨ k > (s.workingProxies.length : Int)) :
    iteration pf s inp
        = ([.print .changeOrExit, .scan, .sleep 5], .next { s with selectedProxyIndex := -1 })
    ∧ (selectorLoop pf s (inp :: rest)).2 = .next { s with selectedProxyIndex := -1 }
    ∧ setCalls (selectorLoop pf s (inp :: rest)).1 = 0
    ∧ (∀ e ∈ (selectorLoop pf s (inp :: rest)).1, e.isProbeCall = false)
    ∧ ∀ (s1 : Selector) (inp1 : Inputs), 0 < setCalls (iteration pf s1 inp1).1 →
        s1.selectedProxyIndex = -1
          ∧ ∃ k, Atoi inp1.line = some k ∧ 1 ≤ k ∧ k ≤ (s1.workingProxies.length : Int) := by
  have hne : s.selectedProxyIndex ≠ -1 := by omega
  have hit := iteration_change pf s inp hne hline
  obtain ⟨l1, l2, l3⟩ := loop_invalid pf { s with selectedProxyIndex := -1 } rfl rest hbad
  refine ⟨hit, ?_, ?_, ?_, fun s1 inp1 h => setCalls_iteration_pos pf s1 inp1 h⟩
  · simp only [selectorLoop, hit]
    exact l1
  · simp only [selectorLoop, hit, setCalls_append, l2]
    rfl
  · intro e he
    simp only [selectorLoop, hit, List.mem_append] at he
    rcases he with he | he
    · simp only [List.mem_cons, List.mem_singleton, List.not_mem_nil, or_false] at he
      rcases he with rfl | rfl | rfl <;> rfl
    · exact l3 e he

theorem invalidLines_invalid :
    ∀ r ∈ invalidLines, ∀ k, Atoi r.line = some k → k < 1 ∨ k > (twoProxies.length : Int) := by
  intro r hr k hk
  simp only [invalidLines, List.mem_cons, List.mem_singleton, List.not_mem_nil, or_false] at hr
  rcases hr with rfl | rfl | rfl | rfl
  · exact Option.noConfusion ((show Atoi (typed "abc").line = none by decide).symm.trans hk)
  · have h0 : Atoi (typed "0").line = some 0 := by decide
    rw [h0] at hk
    have := Option.some.inj hk
    left; omega
  · have h0 : Atoi (typed "3").line = some 3 := by decide
    rw [h0] at hk
    have := Option.some.inj hk
    right
    have hl : (twoProxies.length : Int) = 2 := by decide
    omega
  · exact Option.noConfusion ((show Atoi (typed "").line = none by decide).symm.trans hk)

/-- With the second of `twoProxies` chosen, "change" followed by the lines
    "abc", "0", "3" and the empty line never enters `setSystemProxy`. -/
theorem change_returns_to_unchosen_witness :
    ((0 : Int) ≤ ({ workingProxies := twoProxies, selectedProxyIndex := 1 } : Selector).selectedProxyIndex
      ∧ (typed "change").line = "change"
      ∧ ∀ r ∈ invalidLines, ∀ k, Atoi r.line = some k → k < 1 ∨ k > (twoProxies.length : Int))
    ∧ (iteration parseDecimal { workingProxies := twoProxies, selectedProxyIndex := 1 }
          (typed "change")
        = ([.print .changeOrExit, .scan, .sleep 5],
           .next { workingProxies := twoProxies, selectedProxyIndex := -1 })
      ∧ (selectorLoop parseDecimal { workingProxies := twoProxies, selectedProxyIndex := 1 }
          (typed "change" :: invalidLines)).2
          = .next { workingProxies := twoProxies, selectedProxyIndex := -1 }
      ∧ setCalls (selectorLoop parseDecimal { workingProxies := twoProxies, selectedProxyIndex := 1 }
          (typed "change" :: invalidLines)).1 = 0
      ∧ (∀ e ∈ (selectorLoop parseDecimal { workingProxies := twoProxies, selectedProxyIndex := 1 }
          (typed "change" :: invalidLines)).1, e.isProbeCall = false)
      ∧ ∀ (s1 : Selector) (inp1 : Inputs), 0 < setCalls (iteration parseDecimal s1 inp1).1 →
          s1.selectedProxyIndex = -1
            ∧ ∃ k, Atoi inp1.line = some k ∧ 1 ≤ k ∧ k ≤ (s1.workingProxies.length : Int)) :=
  ⟨⟨by decide, rfl, invalidLines_invalid⟩,
   change_returns_to_unchosen parseDecimal { workingProxies := twoProxies, selectedProxyIndex := 1 }
     (typed "change") invalidLines (by decide) rfl invalidLines_invalid⟩

theorem iteration_frame (pf : String → FloatParse) (s s1 : Selector) (inp : Inputs)
    (h : (iteration pf s inp).2 = .next s1) : s1.workingProxies = s.workingProxies := by
  unfold iteration at h
  by_cases hun : s.selectedProxyIndex = -1
  · simp only [hun, if_true] at h
    cases ha : Atoi inp.line with
    | none =>
      simp only [ha, Control.next.injEq] at h
      rw [← h]
    | some k =>
      simp only [ha] at h
      by_cases hk : k < 1 ∨ k > (s.workingProxies.length : Int)
      · simp only [hk, if_true, Control.next.injEq] at h
        rw [← h]
      · simp only [hk, if_false] at h
        cases hs : sliceIndex s.workingProxies (k - 1) with
        | none => simp [hs] at h
        | some p =>
          simp only [hs, Control.next.injEq] at h
          rw [← h]
  · simp only [hun, if_false] at h
    by_cases h1 : inp.line = "change"
    · rw [if_pos h1] at h
      simp only [Control.next.injEq] at h
      rw [← h]
    · by_cases h2 : inp.line = "exit"
      · rw [if_neg h1, if_pos h2] at h
        simp at h
      · rw [if_neg h1, if_neg h2] at h
        simp only [Control.next.injEq] at h
        rw [← h]

theorem selectorLoop_frame (pf : String → FloatParse) (inputs : List Inputs) :
    ∀ s s1 : Selector, (selectorLoop pf s inputs).2 = .next s1 →
      s1.workingProxies = s.workingProxies := by
  induction inputs with
  | nil =>
    intro s s1 h
    simp only [selectorLoop, Control.next.injEq] at h
    rw [← h]
  | cons inp rest ih =>
    intro s s1 h
    simp only [selectorLoop] at h
    cases hit : iteration pf s inp with
    | mk es c =>
      cases c with
      | next s2 =>
        simp only [hit] at h
        rw [ih s2 s1 h]
        exact iteration_frame pf s s2 inp (by rw [hit])
      | exited code => simp [hit] at h
      | panicked => simp [hit] at h

/-- The selection loop never writes `workingProxies`: whenever `main` is inside
    the loop, after any finite sequence of inputs, its `workingProxies` is the
    list that validation left at the barrier (same entries, same order, same
    `Ping` values), and every entry of it has a `Ping` different from -1 and at
    most `maxPing`.  That bound alone does not make the latency a measured
    one: the value 0 of a discarded parse error satisfies it. -/
theorem loop_keeps_result_set (pf : String → FloatParse) (fetch : FetchOutcome)
    (reply : Nat → ProbeOutcome) (pong : Nat → PingOutcome) (sched : List Nat)
    (inputs : List Inputs) (s : Selector)
    (h : (main pf fetch reply pong sched inputs).2 = .loop (.next s)) :
    s.workingProxies
        = (runSched pf sched (spawn (mkJobs reply pong 0 (fetchProxyList fetch).2))).workingProxies
    ∧ ∀ p ∈ s.workingProxies, p.Ping ≠ -1 ∧ p.Ping ≤ maxPing := by
  unfold main at h
  simp only at h
  by_cases hw : (runSched pf sched (spawn (mkJobs reply pong 0 (fetchProxyList fetch).2))).wg ≠ 0
  · rw [if_pos hw] at h
    simp at h
  · rw [if_neg hw] at h
    by_cases hl : (runSched pf sched
        (spawn (mkJobs reply pong 0 (fetchProxyList fetch).2))).workingProxies.length = 0
    · rw [if_pos hl] at h
      simp at h
    · rw [if_neg hl] at h
      simp only [Ending.loop.injEq] at h
      have hf := selectorLoop_frame pf inputs _ s h
      simp only at hf
      refine ⟨hf, ?_⟩
      intro p hp
      rw [hf] at hp
      have hbar : (runSched pf sched
          (spawn (mkJobs reply pong 0 (fetchProxyList fetch).2))).wg = 0 := by
        simpa using hw
      rw [(validation_perm pf _ sched hbar).mem_iff, mem_verdict_iff] at hp
      obtain ⟨j, -, -, h1, h2, rfl⟩ := hp
      exact ⟨h1, h2⟩

/-- After the session `session` on the result of scenario B, `main` is in the
    loop with the first proxy chosen and the list of the barrier. -/
theorem loop_keeps_result_set_at_session :
    (main parseDecimal
        (.ok [candidate "10.0.0.1", candidate "10.0.0.2", candidate "10.0.0.3"])
        (fun _ => .response 200) pongB schedB session).2
      = .loop (.next { workingProxies := twoProxies, selectedProxyIndex := 0 })
    ∧ (({ workingProxies := twoProxies, selectedProxyIndex := 0 } : Selector).workingProxies
        = (runSched parseDecimal schedB (spawn (mkJobs (fun _ => .response 200) pongB 0
            (fetchProxyList (.ok [candidate "10.0.0.1", candidate "10.0.0.2",
              candidate "10.0.0.3"])).2))).workingProxies
      ∧ ∀ p ∈ ({ workingProxies := twoProxies, selectedProxyIndex := 0 } : Selector).workingProxies,
          p.Ping ≠ -1 ∧ p.Ping ≤ maxPing) :=
  ⟨by decide,
   loop_keeps_result_set parseDecimal
     (.ok [candidate "10.0.0.1", candidate "10.0.0.2", candidate "10.0.0.3"])
     (fun _ => .response 200) pongB schedB session
     { workingProxies := twoProxies, selectedProxyIndex := 0 } (by decide)⟩

theorem isProxyWorking_events (p : Proxy) (o : ProbeOutcome) :
    ∀ e ∈ (isProxyWorking p o).1, e.isControl = false := by
  intro e he
  cases o <;> simp [isProxyWorking] at he <;> rcases he with rfl | rfl | rfl <;> rfl

theorem getPing_events (pf : String → FloatParse) (ip : String) (o : PingOutcome) :
    ∀ e ∈ (getPing pf ip o).1, e.isControl = false := by
  intro e he
  cases o <;> simp [getPing] at he <;> rcases he with rfl | rfl | rfl <;> rfl

theorem fetchProxyList_events (o : FetchOutcome) :
    ∀ e ∈ (fetchProxyList o).1, e.isControl = false := by
  intro e he
  cases o <;> simp [fetchProxyList] at he <;> rcases he with rfl | rfl | rfl <;> rfl

theorem step_log (pf : String → FloatParse) (i : Nat) (s : VState)
    (h : ∀ e ∈ s.log, e.isControl = false) : ∀ e ∈ (step pf i s).log, e.isControl = false := by
  unfold step
  cases s.workers.get? i with
  | none => exact h
  | some w =>
    obtain ⟨job, pc, prxy, snap⟩ := w
    cases pc <;> dsimp only
    · by_cases hw : (isProxyWorking prxy job.reply).2 = true
      · rw [if_pos hw]
        intro e he
        rcases List.mem_append.mp he with he | he
        · exact h e he
        · exact isProxyWorking_events _ _ e he
      · rw [if_neg hw]
        intro e he
        simp only [List.mem_append, List.mem_singleton] at he
        rcases he with (he | he) | rfl
        · exact h e he
        · exact isProxyWorking_events _ _ e he
        · rfl
    · by_cases hc : (getPing pf prxy.IP job.pong).2 ≠ -1 ∧ (getPing pf prxy.IP job.pong).2 ≤ maxPing
      · rw [if_pos hc]
        intro e he
        rcases List.mem_append.mp he with he | he
        · exact h e he
        · exact getPing_events _ _ _ e he
      · rw [if_neg hc]
        intro e he
        simp only [List.mem_append, List.mem_singleton] at he
        rcases he with (he | he) | rfl
        · exact h e he
        · exact getPing_events _ _ _ e he
        · rfl
    · by_cases hm : s.mu = true
      · rw [if_pos hm]; exact h
      · rw [if_neg hm]; exact h
    · exact h
    · exact h
    · exact h
    · intro e he
      simp only [List.mem_append, List.mem_singleton] at he
      rcases he with he | rfl
      · exact h e he
      · rfl
    · exact h

theorem runSched_log (pf : String → FloatParse) (sched : List Nat) :
    ∀ s : VState, (∀ e ∈ s.log, e.isControl = false) →
      ∀ e ∈ (runSched pf sched s).log, e.isControl = false := by
  induction sched with
  | nil => intro s h; exact h
  | cons i sched ih => intro s h; exact ih _ (step_log pf i s h)

theorem validation_log (pf : String → FloatParse) (sched : List Nat) (jobs : List Job) :
    ∀ e ∈ (runSched pf sched (spawn jobs)).log, e.isControl = false :=
  runSched_log pf sched _ (by simp [spawn])

theorem runSched_no_workers (pf : String → FloatParse) (sched : List Nat) :
    runSched pf sched (spawn []) = spawn [] := by
  induction sched with
  | nil => rfl
  | cons i sched ih =>
    simp only [runSched]
    have : step pf i (spawn []) = spawn [] := by simp [step, spawn]
    rw [this, ih]

theorem setCalls_of_not_control (es : List Event) (h : ∀ e ∈ es, e.isControl = false) :
    setCalls es = 0 ∧ Event.scan ∉ es := by
  constructor
  · simp only [setCalls, List.countP_eq_zero]
    intro e he
    have := h e he
    cases e with
    | call c => cases c <;> simp_all [Event.isControl, Event.isSetCall]
    | _ => simp [Event.isSetCall]
  · intro hs
    have := h _ hs
    simp [Event.isControl] at this

/-- C4: when the barrier is reached and every candidate is rejected (which
    includes an empty candidate list), `main` prints the no-proxies message and
    returns: its trace has no read of a line and no entry of `setSystemProxy`.
    A failed fetch gives the empty candidate list, so `main` then behaves as on
    an empty list: after the effects of `fetchProxyList` it prints the message
    and returns, under every schedule and for every input. -/
theorem empty_result_ends_main (pf : String → FloatParse) (fetch : FetchOutcome)
    (reply : Nat → ProbeOutcome) (pong : Nat → PingOutcome) (sched : List Nat)
    (inputs : List Inputs)
    (hbar : (runSched pf sched (spawn (mkJobs reply pong 0 (fetchProxyList fetch).2))).wg = 0)
    (hrej : ∀ j ∈ mkJobs reply pong 0 (fetchProxyList fetch).2, verdict pf j = none) :
    main pf fetch reply pong sched inputs
        = ((fetchProxyList fetch).1
             ++ (runSched pf sched (spawn (mkJobs reply pong 0 (fetchProxyList fetch).2))).log
             ++ [.print .noProxies],
           .returned)
    ∧ Event.scan ∉ (main pf fetch reply pong sched inputs).1
    ∧ setCalls (main pf fetch reply pong sched inputs).1 = 0
    ∧ ∀ f : FetchOutcome, f = .getErr ∨ f = .readErr ∨ f = .jsonErr ∨ f = .ok [] →
        main pf f reply pong sched inputs
          = ((fetchProxyList f).1 ++ [.print .noProxies], .returned) := by
  have hperm := validation_perm pf _ sched hbar
  have hnil : (mkJobs reply pong 0 (fetchProxyList fetch).2).filterMap (verdict pf) = [] := by
    rw [List.filterMap_eq_nil_iff]
    exact hrej
  rw [hnil] at hperm
  have hwp := List.Perm.eq_nil hperm
  have hmain : main pf fetch reply pong sched inputs
      = ((fetchProxyList fetch).1
           ++ (runSched pf sched (spawn (mkJobs reply pong 0 (fetchProxyList fetch).2))).log
           ++ [.print .noProxies],
         .returned) := by
    unfold main
    simp only [hbar, hwp, ne_eq, not_true_eq_false, if_false, List.length_nil, if_true]
  have hquiet : ∀ e ∈ (main pf fetch reply pong sched inputs).1, e.isControl = false := by
    rw [hmain]
    intro e he
    simp only [List.mem_append, List.mem_singleton] at he
    rcases he with (he | he) | rfl
    · exact fetchProxyList_events _ e he
    · exact validation_log pf sched _ e he
    · rfl
  refine ⟨hmain, (setCalls_of_not_control _ hquiet).2, (setCalls_of_not_control _ hquiet).1, ?_⟩
  intro f hf
  have hf2 : (fetchProxyList f).2 = [] := by
    rcases hf with rfl | rfl | rfl | rfl <;> rfl
  unfold main
  simp only [hf2, mkJobs, runSched_no_workers]
  simp [spawn]

/-- Two candidates, both rejected, under a schedule that runs each goroutine
    to its end. -/
theorem empty_result_ends_main_witness :
    ((runSched parseDecimal [0, 1, 1] (spawn (mkJobs rejectedReply pongB 0
        (fetchProxyList (.ok [candidate "10.0.0.1", candidate "10.0.0.2"])).2))).wg = 0
      ∧ ∀ j ∈ mkJobs rejectedReply pongB 0
          (fetchProxyList (.ok [candidate "10.0.0.1", candidate "10.0.0.2"])).2,
          verdict parseDecimal j = none)
    ∧ (main parseDecimal (.ok [candidate "10.0.0.1", candidate "10.0.0.2"]) rejectedReply pongB
          [0, 1, 1] session
        = ((fetchProxyList (.ok [candidate "10.0.0.1", candidate "10.0.0.2"])).1
             ++ (runSched parseDecimal [0, 1, 1] (spawn (mkJobs rejectedReply pongB 0
                  (fetchProxyList (.ok [candidate "10.0.0.1", candidate "10.0.0.2"])).2))).log
             ++ [.print .noProxies],
           .returned)
      ∧ Event.scan ∉ (main parseDecimal (.ok [candidate "10.0.0.1", candidate "10.0.0.2"])
          rejectedReply pongB [0, 1, 1] session).1
      ∧ setCalls (main parseDecimal (.ok [candidate "10.0.0.1", candidate "10.0.0.2"])
          rejectedReply pongB [0, 1, 1] session).1 = 0
      ∧ ∀ f : FetchOutcome, f = .getErr ∨ f = .readErr ∨ f = .jsonErr ∨ f = .ok [] →
          main parseDecimal f rejectedReply pongB [0, 1, 1] session
            = ((fetchProxyList f).1 ++ [.print .noProxies], .returned)) :=
  ⟨⟨by decide, by decide⟩,
   empty_result_ends_main parseDecimal (.ok [candidate "10.0.0.1", candidate "10.0.0.2"])
     rejectedReply pongB [0, 1, 1] session (by decide) (by decide)⟩

/-- C8: `isProxyWorking` returns false when the SOCKS5 dialer cannot be
    created, when the HTTPS request fails, and when the status code of the
    response is not a 2xx code. -/
theorem not_working_on_failure (prxy : Proxy) (o : ProbeOutcome)
    (h : o = .dialerErr ∨ o = .requestErr
      ∨ ∃ code, o = .response code ∧ ¬ (200 ≤ code ∧ code ≤ 299)) :
    (isProxyWorking prxy o).2 = false := by
  rcases h with rfl | rfl | ⟨code, rfl, hc⟩
  · rfl
  · rfl
  · have hne : code ≠ StatusOK := by
      intro he
      rw [he] at hc
      exact hc (by decide)
    simp [isProxyWorking, hne]

/-- A response with status 404 is such a failure. -/
theorem not_working_on_failure_witness :
    ((ProbeOutcome.response 404 = .dialerErr ∨ ProbeOutcome.response 404 = .requestErr
        ∨ ∃ code, ProbeOutcome.response 404 = .response code ∧ ¬ (200 ≤ code ∧ code ≤ 299)))
    ∧ (isProxyWorking (candidate "10.0.0.1") (.response 404)).2 = false :=
  ⟨Or.inr (Or.inr ⟨404, rfl, by decide⟩),
   not_working_on_failure (candidate "10.0.0.1") (.response 404)
     (Or.inr (Or.inr ⟨404, rfl, by decide⟩))⟩

theorem isProxyWorking_iff_200 (prxy : Proxy) (o : ProbeOutcome) :
    (isProxyWorking prxy o).2 = true ↔ o = .response 200 := by
  cases o with
  | dialerErr => simp [isProxyWorking]
  | requestErr => simp [isProxyWorking]
  | response code => simp [isProxyWorking, StatusOK]

theorem unknown_ping_rejected (pf : String → FloatParse) (j : Job)
    (h : (getPing pf j.prxy.IP j.pong).2 = -1) : verdict pf j = none := by
  simp [verdict, h]

theorem getPing_failed (pf : String → FloatParse) (ip : String) :
    (getPing pf ip .failed).2 = -1 := rfl

theorem scanLines_unknown (pf : String → FloatParse) (lines : List (List Char))
    (h : ∀ line ∈ lines, Contains line "avg".toList = false ∨ (Split line '/').length < 5) :
    scanLines pf lines = -1 := by
  induction lines with
  | nil => rfl
  | cons line lines ih =>
    have ih2 := ih (fun l hl => h l (by simp [hl]))
    unfold scanLines
    by_cases hc : Contains line "avg".toList = true
    · rw [if_pos hc]
      rcases h line (by simp) with hc2 | hl
      · rw [hc] at hc2
        cases hc2
      · have hl2 : ¬ (5 ≤ (Split line '/').length) := by omega
        simp only [dif_neg hl2]
        exact ih2
    · rw [if_neg hc]
      exact ih2

/-- C3: on the output of BusyBox `ping`, whose summary line contains "avg" and
    has five `/`-separated fields of which the fifth, "0.060 ms", is not a
    number, `getPing` returns what the discarded-error `ParseFloat` call
    yields, which is 0 and not -1, and validation accepts the candidate with
    `Ping = 0`.  A failing `ping` command does give -1. -/
theorem getPing_unparsed_average :
    (∀ (pf : String → FloatParse) (ip : String), (getPing pf ip .failed).2 = -1)
    ∧ (∀ (pf : String → FloatParse) (ip : String),
        (getPing pf ip busyboxReply).2 = (pf "0.060 ms").truncated)
    ∧ parseDecimal "0.060 ms" = { truncated := 0, err := true }
    ∧ (getPing parseDecimal "10.0.0.5" busyboxReply).2 = 0
    ∧ (runSched parseDecimal (sequential 1)
        (spawn [{ prxy := candidate "10.0.0.5", reply := .response 200, pong := busyboxReply }])).wg = 0
    ∧ (runSched parseDecimal (sequential 1)
        (spawn [{ prxy := candidate "10.0.0.5", reply := .response 200,
                  pong := busyboxReply }])).workingProxies
        = [{ candidate "10.0.0.5" with Ping := 0 }] :=
  ⟨fun _ _ => rfl, fun _ _ => rfl, by decide, by decide, by decide, by decide⟩

/-- C10: on the output of BusyBox `ping` the fifth field of the summary line,
    "0.060 ms", is not a number, so the latency of the candidate is not
    determined; `getPing` still returns 0, validation appends the candidate
    with `Ping = 0`, and `main` enters the selection loop with that entry in
    `workingProxies` and lists it with a ping of 0 ms.  The list itself is not
    changed by the loop. -/
theorem undetermined_latency_listed :
    parseDecimal "0.060 ms" = { truncated := 0, err := true }
    ∧ (∀ pf : String → FloatParse, pf "0.060 ms" = { truncated := 0, err := true } →
        verdict pf { prxy := candidate "10.0.0.5", reply := .response 200, pong := busyboxReply }
          = some { candidate "10.0.0.5" with Ping := 0 })
    ∧ (runSched parseDecimal (sequential 1) (spawn (mkJobs (fun _ => .response 200)
          (fun _ => busyboxReply) 0 [candidate "10.0.0.5"]))).workingProxies
        = [{ candidate "10.0.0.5" with Ping := 0 }]
    ∧ (main parseDecimal (.ok [candidate "10.0.0.5"]) (fun _ => .response 200)
          (fun _ => busyboxReply) (sequential 1) [typed "abc"]).2
        = .loop (.next { workingProxies := [{ candidate "10.0.0.5" with Ping := 0 }],
                         selectedProxyIndex := -1 })
    ∧ Event.print (.entry 1 "10.0.0.5" 1080 "Germany" 0 "Hetzner")
        ∈ (main parseDecimal (.ok [candidate "10.0.0.5"]) (fun _ => .response 200)
            (fun _ => busyboxReply) (sequential 1) [typed "abc"]).1 := by
  refine ⟨by decide, ?_, by decide, by decide, by decide⟩
  intro pf h
  have hp : (getPing pf (candidate "10.0.0.5").IP busyboxReply).2 = (pf "0.060 ms").truncated :=
    rfl
  simp only [verdict, hp, h]
  decide

/-! ## The process and its signal goroutine -/

theorem isFinal_of_parts (e : Event) (h1 : e.isExit = false)
    (h2 : e ≠ .call .disableSystemProxy) : e.isFinal = false := by
  cases e with
  | call c => cases c <;> simp_all [Event.isFinal]
  | osExit c => simp [Event.isExit] at h1
  | _ => rfl

theorem isFinal_of_not_control (e : Event) (h : e.isControl = false) : e.isFinal = false := by
  cases e with
  | call c => cases c <;> simp_all [Event.isFinal, Event.isControl]
  | osExit c => simp [Event.isControl] at h
  | _ => rfl

theorem setSystemProxy_events (pf : String → FloatParse) (p : Proxy) (g : GeoOutcome)
    (q : PingOutcome) : ∀ e ∈ setSystemProxy pf p g q, e.isFinal = false := by
  intro e he
  simp only [setSystemProxy, List.mem_append, List.mem_cons, List.mem_singleton,
    List.not_mem_nil, or_false] at he
  rcases he with (((rfl | rfl | rfl | rfl) | he) | he) | rfl
  · rfl
  · rfl
  · rfl
  · rfl
  · have := getGeoInfo_events _ _ _ _ e he
    exact isFinal_of_not_control e this.2.2.1
  · exact isFinal_of_not_control e (getPing_events _ _ _ e he)
  · rfl

theorem shown_not_final (inp : Inputs) (l : List Proxy) :
    ∀ e ∈ shown inp l, e.isFinal = false := by
  intro e he
  have := shown_events inp l e he
  exact isFinal_of_parts e this.2.2.1 this.2.2.2

theorem iteration_shape (pf : String → FloatParse) (s : Selector) (inp : Inputs) :
    ((∀ e ∈ (iteration pf s inp).1, e.isFinal = false)
        ∧ ∀ c, (iteration pf s inp).2 ≠ .exited c)
    ∨ (∃ pre, (∀ e ∈ pre, e.isFinal = false) ∧ (iteration pf s inp).1 = pre ++ handlerBody
        ∧ (iteration pf s inp).2 = .exited 0) := by
  unfold iteration
  by_cases hun : s.selectedProxyIndex = -1
  · left
    rw [if_pos hun]
    cases Atoi inp.line with
    | none =>
      refine ⟨?_, by simp⟩
      intro e he
      rcases List.mem_append.mp he with he | he
      · exact shown_not_final inp _ e he
      · simp only [List.mem_singleton] at he
        rw [he]; rfl
    | some k =>
      dsimp only
      by_cases hk : k < 1 ∨ k > (s.workingProxies.length : Int)
      · rw [if_pos hk]
        refine ⟨?_, by simp⟩
        intro e he
        rcases List.mem_append.mp he with he | he
        · exact shown_not_final inp _ e he
        · simp only [List.mem_singleton] at he
          rw [he]; rfl
      · rw [if_neg hk]
        cases sliceIndex s.workingProxies (k - 1) with
        | none => exact ⟨fun e he => shown_not_final inp _ e he, by simp⟩
        | some p =>
          refine ⟨?_, by simp⟩
          intro e he
          rcases List.mem_append.mp he with he | he
          · rcases List.mem_append.mp he with he | he
            · exact shown_not_final inp _ e he
            · exact setSystemProxy_events _ _ _ _ e he
          · simp only [List.mem_singleton] at he
            rw [he]; rfl
  · rw [if_neg hun]
    by_cases h1 : inp.line = "change"
    · left
      rw [if_pos h1]
      refine ⟨?_, by simp⟩
      intro e he
      simp only [List.mem_append, List.mem_cons, List.mem_singleton, List.not_mem_nil,
        or_false] at he
      rcases he with (rfl | rfl) | rfl <;> rfl
    · rw [if_neg h1]
      by_cases h2 : inp.line = "exit"
      · right
        rw [if_pos h2]
        refine ⟨[.print .changeOrExit, .scan], ?_, ?_, rfl⟩
        · intro e he
          simp only [List.mem_cons, List.mem_singleton, List.not_mem_nil, or_false] at he
          rcases he with rfl | rfl <;> rfl
        · simp [handlerBody]
      · left
        rw [if_neg h2]
        refine ⟨?_, by simp⟩
        intro e he
        simp only [List.mem_append, List.mem_cons, List.mem_singleton, List.not_mem_nil,
          or_false] at he
        rcases he with (rfl | rfl) | rfl <;> rfl

theorem selectorLoop_shape (pf : String → FloatParse) (inputs : List Inputs) :
    ∀ s : Selector, Shape (selectorLoop pf s inputs).1 := by
  induction inputs with
  | nil => intro s; exact ⟨[], by simp, Or.inl rfl⟩
  | cons inp rest ih =>
    intro s
    rcases iteration_shape pf s inp with ⟨h1, h2⟩ | ⟨pre, h1, h2, h3⟩
    · cases hit : iteration pf s inp with
      | mk es c =>
        rw [hit] at h1 h2
        simp only at h1 h2
        cases c with
        | next s1 =>
          simp only [selectorLoop, hit]
          obtain ⟨pre, hp, hT⟩ := ih s1
          refine ⟨es ++ pre, ?_, ?_⟩
          · intro e he
            rcases List.mem_append.mp he with he | he
            · exact h1 e he
            · exact hp e he
          · rcases hT with hT | hT
            · left; rw [hT]
            · right; rw [hT]; simp
        | exited code => exact absurd rfl (h2 code)
        | panicked =>
          simp only [selectorLoop, hit]
          exact ⟨es, h1, Or.inl rfl⟩
    · cases hit : iteration pf s inp with
      | mk es c =>
        rw [hit] at h2 h3
        simp only at h2 h3
        subst h2 h3
        simp only [selectorLoop, hit]
        exact ⟨pre, h1, Or.inr rfl⟩

theorem main_shape (pf : String → FloatParse) (fetch : FetchOutcome)
    (reply : Nat → ProbeOutcome) (pong : Nat → PingOutcome) (sched : List Nat)
    (inputs : List Inputs) : Shape (main pf fetch reply pong sched inputs).1 := by
  have hq : ∀ e ∈ (fetchProxyList fetch).1
      ++ (runSched pf sched (spawn (mkJobs reply pong 0 (fetchProxyList fetch).2))).log,
      e.isFinal = false := by
    intro e he
    rcases List.mem_append.mp he with he | he
    · exact isFinal_of_not_control e (fetchProxyList_events _ e he)
    · exact isFinal_of_not_control e (validation_log pf sched _ e he)
  unfold main
  dsimp only
  by_cases hw : (runSched pf sched (spawn (mkJobs reply pong 0 (fetchProxyList fetch).2))).wg ≠ 0
  · rw [if_pos hw]
    exact ⟨_, hq, Or.inl rfl⟩
  · rw [if_neg hw]
    by_cases hl : (runSched pf sched
        (spawn (mkJobs reply pong 0 (fetchProxyList fetch).2))).workingProxies.length = 0
    · rw [if_pos hl]
      refine ⟨_, ?_, Or.inl rfl⟩
      intro e he
      rcases List.mem_append.mp he with he | he
      · exact hq e he
      · simp only [List.mem_singleton] at he
        rw [he]; rfl
    · rw [if_neg hl]
      obtain ⟨pre, hp, hT⟩ := selectorLoop_shape pf inputs
        { workingProxies := (runSched pf sched
            (spawn (mkJobs reply pong 0 (fetchProxyList fetch).2))).workingProxies,
          selectedProxyIndex := -1 }
      refine ⟨((fetchProxyList fetch).1
        ++ (runSched pf sched (spawn (mkJobs reply pong 0 (fetchProxyList fetch).2))).log)
        ++ pre, ?_, ?_⟩
      · intro e he
        rcases List.mem_append.mp he with he | he
        · exact hq e he
        · exact hp e he
      · rcases hT with hT | hT
        · left; simp only [hT]
        · right; simp only [hT, List.append_assoc]

theorem eventsOf_concat (a b : Actor) (e : Event) (log : List (Actor × Event)) :
    eventsOf a (log ++ [(b, e)]) = if b = a then eventsOf a log ++ [e] else eventsOf a log := by
  by_cases h : b = a
  · simp [eventsOf, List.filter_append, h]
  · simp [eventsOf, List.filter_append, h]

theorem boot_reach (tr : List Event × Ending) : Reach tr.1 (boot tr) := by
  refine ⟨?_, ?_, ?_, ?_, ?_⟩ <;> simp [boot, eventsOf]

theorem step_reach (T : List Event) (p : Proc) (a : Actor) (h : Reach T p) :
    Reach T (p.step a) := by
  obtain ⟨hm, hh, hs, hl, hd⟩ := h
  unfold Proc.step
  by_cases hex : p.exited = true
  · rw [if_pos hex]
    exact ⟨hm, hh, hs, hl, hd⟩
  · rw [if_neg hex]
    have hlive := hl (by simpa using hex)
    cases a with
    | signal => exact ⟨hm, hh, hs, hl, hd⟩
    | handler =>
      dsimp only
      cases hto : p.handlerTodo with
      | none =>
        dsimp only
        by_cases hc : p.chan = 0
        · rw [if_pos hc]; exact ⟨hm, hh, hs, hl, hd⟩
        · rw [if_neg hc]
          rw [hto] at hh
          simp only [Option.getD_none, List.append_nil, Option.isSome_none, Bool.false_eq_true,
            if_false] at hh
          exact ⟨hm, by simp [hh], hs, hl, hd⟩
      | some es =>
        cases es with
        | nil => dsimp only; exact ⟨hm, hh, hs, hl, hd⟩
        | cons e es =>
          dsimp only
          rw [hto] at hh
          simp only [Option.getD_some, Option.isSome_some, if_true] at hh
          refine ⟨?_, ?_, ?_, ?_, ?_⟩
          · simpa [eventsOf_concat] using hm
          · simpa [eventsOf_concat] using hh
          · simpa [eventsOf_concat] using hs
          · intro hne x hx
            simp only [List.mem_append, List.mem_singleton] at hx
            rcases hx with hx | rfl
            · exact hlive x hx
            · exact hne
          · simpa using hlive
    | main =>
      dsimp only
      cases hto : p.mainTodo with
      | nil =>
        dsimp only
        by_cases hr : p.mainReturns = true
        · rw [if_pos hr]
          exact ⟨by simpa [hto] using hm, hh, hs, fun hc => by simp at hc, hd⟩
        · rw [if_neg hr]; exact ⟨hm, hh, hs, hl, hd⟩
      | cons e es =>
        dsimp only
        rw [hto] at hm
        refine ⟨?_, ?_, ?_, ?_, ?_⟩
        · simpa [eventsOf_concat] using hm
        · simpa [eventsOf_concat] using hh
        · simpa [eventsOf_concat] using hs
        · intro hne x hx
          simp only [List.mem_append, List.mem_singleton] at hx
          rcases hx with hx | rfl
          · exact hlive x hx
          · exact hne
        · simpa using hlive

theorem run_reach (T : List Event) (sched : List Actor) :
    ∀ p, Reach T p → Reach T (Proc.run sched p) := by
  induction sched with
  | nil => intro p h; exact h
  | cons a sched ih => intro p h; exact ih _ (step_reach T p a h)

theorem disableCalls_split (log : List (Actor × Event)) :
    disableCalls log = disables (eventsOf .main log) + disables (eventsOf .handler log)
      + disables (eventsOf .signal log) := by
  induction log with
  | nil => rfl
  | cons x log ih =>
    obtain ⟨a, e⟩ := x
    simp only [disableCalls, disables, eventsOf] at ih ⊢
    by_cases he : e = .call .disableSystemProxy
    · cases a <;> simp [List.filter_cons, he] at ih ⊢ <;> omega
    · cases a <;> simp [List.filter_cons, he] at ih ⊢ <;> omega

theorem disables_append (a b : List Event) : disables (a ++ b) = disables a + disables b := by
  simp [disables, List.countP_append]

theorem disables_not_final (es : List Event) (h : ∀ e ∈ es, e.isFinal = false) :
    disables es = 0 := by
  simp only [disables, List.countP_eq_zero]
  intro e he
  have := h e he
  simp only [decide_eq_true_eq]
  intro hc
  rw [hc] at this
  simp [Event.isFinal] at this

theorem disables_handlerBody : disables handlerBody = 1 := by decide

theorem disables_shape (T : List Event) (h : Shape T) : disables T ≤ 1 := by
  obtain ⟨pre, hp, hT | hT⟩ := h
  · rw [hT, disables_not_final pre hp]; omega
  · rw [hT, disables_append, disables_not_final pre hp, disables_handlerBody]

theorem isExit_of_not_final (e : Event) (h : e.isFinal = false) : e.isExit = false := by
  cases e with
  | osExit c => simp [Event.isFinal] at h
  | _ => rfl

theorem disableSystemProxy_no_exit : ∀ e ∈ disableSystemProxy, e.isExit = false := by decide

theorem prefix_with_exit (A B L : List Event) (z : Event) (h : A ++ B = L ++ [z])
    (hL : ∀ x ∈ L, x.isExit = false) (hA : ∃ x ∈ A, x.isExit = true) :
    A = L ++ [z] ∧ B = [] := by
  rcases List.eq_nil_or_concat B with hB | ⟨B1, b, hB⟩
  · subst hB
    exact ⟨by simpa using h, rfl⟩
  · exfalso
    rw [List.concat_eq_append] at hB
    subst hB
    rw [← List.append_assoc] at h
    have h1 := List.append_inj' h rfl
    obtain ⟨x, hx, hxe⟩ := hA
    have := hL x (by rw [← h1.1]; simp [hx])
    rw [this] at hxe
    cases hxe

theorem exit_by_main (T A B : List Event) (hs : Shape T) (h : A ++ B = T)
    (hA : ∃ x ∈ A, x.isExit = true) :
    ∃ pre, (∀ e ∈ pre, e.isFinal = false) ∧ A = pre ++ handlerBody ∧ B = [] := by
  obtain ⟨pre, hp, hT | hT⟩ := hs
  · exfalso
    obtain ⟨x, hx, hxe⟩ := hA
    have := isExit_of_not_final x (hp x (by rw [← hT, ← h]; simp [hx]))
    rw [this] at hxe
    cases hxe
  · have hT2 : A ++ B = (pre ++ disableSystemProxy) ++ [.osExit 0] := by
      rw [h, hT]; simp [handlerBody]
    have hL : ∀ x ∈ pre ++ disableSystemProxy, x.isExit = false := by
      intro x hx
      rcases List.mem_append.mp hx with hx | hx
      · exact isExit_of_not_final x (hp x hx)
      · exact disableSystemProxy_no_exit x hx
    obtain ⟨h1, h2⟩ := prefix_with_exit A B _ _ hT2 hL hA
    exact ⟨pre, hp, by rw [h1]; simp [handlerBody], h2⟩

theorem mem_eventsOf (a : Actor) (e : Event) (log : List (Actor × Event)) :
    e ∈ eventsOf a log ↔ (a, e) ∈ log := by
  simp only [eventsOf, List.mem_map, List.mem_filter, decide_eq_true_eq]
  constructor
  · rintro ⟨⟨b, f⟩, ⟨hm, hb⟩, hf⟩
    simp only at hb hf
    subst hb hf
    exact hm
  · intro h
    exact ⟨(a, e), ⟨h, rfl⟩, rfl⟩

theorem exit_is_last (log : List (Actor × Event)) (x : Actor × Event) (hx : x ∈ log)
    (hxe : x.2.isExit = true) (hd : ∀ y ∈ log.dropLast, y.2.isExit = false) :
    log.getLast? = some x := by
  rcases List.eq_nil_or_concat log with hl | ⟨l1, b, hl⟩
  · subst hl; simp at hx
  · rw [List.concat_eq_append] at hl
    subst hl
    simp only [List.dropLast_concat] at hd
    simp only [List.mem_append, List.mem_singleton] at hx
    rcases hx with hx | rfl
    · have := hd x hx
      rw [this] at hxe
      cases hxe
    · simp

theorem run_exited (sched : List Actor) : ∀ p : Proc, p.exited = true → Proc.run sched p = p := by
  induction sched with
  | nil => intro p _; rfl
  | cons a sched ih =>
    intro p h
    have hs : p.step a = p := by simp [Proc.step, h]
    simp only [Proc.run, hs]
    exact ih p h

theorem handler_finishes :
    ∀ (es : List Event) (p : Proc), p.exited = false → p.handlerTodo = some es →
      (∃ m, es = m ++ [.osExit 0] ∧ ∀ x ∈ m, x.isExit = false) →
      ∀ k, es.length ≤ k →
        Proc.run (List.replicate k .handler) p
          = { p with handlerTodo := some [], exited := true,
                     log := p.log ++ es.map (fun e => (Actor.handler, e)) } := by
  intro es
  induction es with
  | nil =>
    intro p _ _ hm
    obtain ⟨m, hm, -⟩ := hm
    simp at hm
  | cons e es ih =>
    intro p hex hto hm k hk
    obtain ⟨m, hm, hne⟩ := hm
    cases k with
    | zero => simp at hk
    | succ k =>
      have hstep : p.step .handler
          = { p with handlerTodo := some es, log := p.log ++ [(.handler, e)],
                     exited := e.isExit } := by
        simp [Proc.step, hex, hto]
      simp only [List.replicate_succ, Proc.run, hstep]
      cases m with
      | nil =>
        simp only [List.nil_append, List.cons.injEq] at hm
        obtain ⟨rfl, rfl⟩ := hm
        rw [run_exited _ _ (by rfl)]
        simp [Event.isExit]
      | cons e1 m =>
        simp only [List.cons_append, List.cons.injEq] at hm
        obtain ⟨rfl, rfl⟩ := hm
        have he : e.isExit = false := hne e (by simp)
        rw [ih _ (by simp [he]) rfl ⟨m, rfl, fun x hx => hne x (by simp [hx])⟩ k
          (by simp at hk ⊢; omega)]
        simp

theorem eventsOf_append_map (a : Actor) (log : List (Actor × Event)) (es : List Event) :
    eventsOf a (log ++ es.map (fun e => (a, e))) = eventsOf a log ++ es := by
  induction es generalizing log with
  | nil => simp
  | cons e es ih =>
    have : log ++ (e :: es).map (fun e => (a, e))
        = (log ++ [(a, e)]) ++ es.map (fun e => (a, e)) := by simp
    rw [this, ih, eventsOf_concat]
    simp

theorem handlerTodo_tail (T : List Event) (p : Proc) (h : Reach T p) (hl : p.exited = false)
    (es : List Event) (hto : p.handlerTodo = some es) :
    (∃ m, es = m ++ [.osExit 0] ∧ ∀ x ∈ m, x.isExit = false) ∧ es.length ≤ 5 := by
  have hh := h.handler
  rw [hto] at hh
  simp only [Option.getD_some, Option.isSome_some, if_true] at hh
  have hlen : (eventsOf .handler p.log ++ es).length = 5 := by rw [hh]; rfl
  have hnoexit : ∀ x ∈ eventsOf .handler p.log, x.isExit = false := by
    intro x hx
    exact h.live hl (.handler, x) ((mem_eventsOf _ _ _).mp hx)
  refine ⟨?_, by simp at hlen; omega⟩
  rcases List.eq_nil_or_concat es with he | ⟨m, b, he⟩
  · exfalso
    subst he
    simp only [List.append_nil] at hh
    have := hnoexit (.osExit 0) (by rw [hh]; simp [handlerBody])
    simp [Event.isExit] at this
  · rw [List.concat_eq_append] at he
    subst he
    have hh2 : (eventsOf .handler p.log ++ m) ++ [b] = disableSystemProxy ++ [.osExit 0] := by
      rw [List.append_assoc, hh]; rfl
    have h1 := List.append_inj' hh2 rfl
    have hb : b = .osExit 0 := by simpa using h1.2
    subst hb
    refine ⟨m, rfl, ?_⟩
    intro x hx
    exact disableSystemProxy_no_exit x (by rw [← h1.1]; simp [hx])

theorem handler_runs_out (T : List Event) (p : Proc) (h : Reach T p)
    (hl : p.exited = false) (p1 : Proc) (hex : p1.exited = false) (hchan : p1.chan = 1)
    (hto1 : p1.handlerTodo = p.handlerTodo) (hlog : p1.log = p.log) :
    (Proc.run (List.replicate 6 .handler) p1).exited = true
    ∧ eventsOf .handler (Proc.run (List.replicate 6 .handler) p1).log = handlerBody
    ∧ (Proc.run (List.replicate 6 .handler) p1).log.getLast? = some (.handler, .osExit 0) := by
  have hh := h.handler
  cases hto : p.handlerTodo with
  | none =>
    rw [hto] at hto1 hh
    simp only [Option.getD_none, List.append_nil, Option.isSome_none, Bool.false_eq_true,
      if_false] at hh
    have hstep : p1.step .handler
        = { p1 with chan := p1.chan - 1, handlerTodo := some handlerBody } := by
      simp [Proc.step, hex, hto1, hchan]
    have hrun2 : Proc.run (List.replicate 6 .handler) p1
        = Proc.run (List.replicate 5 .handler)
            { p1 with chan := p1.chan - 1, handlerTodo := some handlerBody } := by
      rw [← hstep]; rfl
    rw [hrun2, handler_finishes handlerBody
      { p1 with chan := p1.chan - 1, handlerTodo := some handlerBody } hex rfl
      ⟨disableSystemProxy, rfl, disableSystemProxy_no_exit⟩ 5 (by decide)]
    refine ⟨rfl, ?_, ?_⟩
    · simp only [eventsOf_append_map, hlog, hh, List.nil_append]
    · show (p1.log ++ handlerBody.map (fun e => (Actor.handler, e))).getLast? = _
      have : handlerBody.map (fun e => (Actor.handler, e))
          = disableSystemProxy.map (fun e => (Actor.handler, e)) ++ [(.handler, .osExit 0)] := rfl
      rw [this, ← List.append_assoc, List.getLast?_append]
      rfl
  | some es =>
    obtain ⟨⟨m, hm, hne⟩, hlen⟩ := handlerTodo_tail T p h hl es hto
    rw [hto] at hto1 hh
    simp only [Option.getD_some, Option.isSome_some, if_true] at hh
    rw [handler_finishes es p1 hex hto1 ⟨m, hm, hne⟩ 6 (by omega)]
    refine ⟨rfl, ?_, ?_⟩
    · simp only [eventsOf_append_map, hlog, hh]
    · show (p1.log ++ es.map (fun e => (Actor.handler, e))).getLast? = _
      subst hm
      rw [List.map_append, ← List.append_assoc, List.getLast?_append]
      rfl

theorem signal_ends_process (T : List Event) (p : Proc) (h : Reach T p)
    (hl : p.exited = false) :
    (Proc.run (.signal :: List.replicate 6 .handler) p).exited = true
    ∧ eventsOf .handler (Proc.run (.signal :: List.replicate 6 .handler) p).log = handlerBody
    ∧ (Proc.run (.signal :: List.replicate 6 .handler) p).log.getLast?
        = some (.handler, .osExit 0) := by
  have hrun : Proc.run (.signal :: List.replicate 6 .handler) p
      = Proc.run (List.replicate 6 .handler) (p.step .signal) := rfl
  rw [hrun]
  have hsig : p.step .signal = { p with chan := min 1 (p.chan + 1) } := by
    simp [Proc.step, hl]
  exact handler_runs_out T p h hl (p.step .signal) (by rw [hsig]; exact hl)
    (by rw [hsig]; show min 1 (p.chan + 1) = 1; omega) (by rw [hsig]) (by rw [hsig])

theorem armed_step (T : List Event) (p : Proc) (h : Reach T p) (hl : p.exited = false)
    (harm : p.handlerTodo = none → 1 ≤ p.chan) (a : Actor) :
    ((p.step a).handlerTodo = none → 1 ≤ (p.step a).chan)
    ∧ ((p.step a).exited = true
        ∨ handlerLeft (p.step a) + (if a = .handler then 1 else 0) ≤ handlerLeft p) := by
  cases a with
  | signal =>
    have hs : p.step .signal = { p with chan := min 1 (p.chan + 1) } := by
      simp [Proc.step, hl]
    rw [hs]
    refine ⟨fun _ => ?_, Or.inr ?_⟩
    · show 1 ≤ min 1 (p.chan + 1)
      omega
    · simp [handlerLeft]
  | main =>
    unfold Proc.step
    simp only [hl, Bool.false_eq_true, if_false]
    cases p.mainTodo with
    | nil =>
      dsimp only
      by_cases hr : p.mainReturns = true
      · rw [if_pos hr]; exact ⟨harm, Or.inl rfl⟩
      · rw [if_neg hr]; exact ⟨harm, Or.inr (by simp)⟩
    | cons e es => exact ⟨harm, Or.inr (by simp [handlerLeft])⟩
  | handler =>
    cases hto : p.handlerTodo with
    | none =>
      have hc : p.chan ≠ 0 := by have := harm hto; omega
      have hs : p.step .handler = { p with chan := p.chan - 1, handlerTodo := some handlerBody } := by
        simp [Proc.step, hl, hto, hc]
      rw [hs]
      refine ⟨fun hn => by simp at hn, Or.inr ?_⟩
      simp only [handlerLeft, hto, if_true]
      decide
    | some es =>
      obtain ⟨⟨m, hm, -⟩, -⟩ := handlerTodo_tail T p h hl es hto
      cases es with
      | nil => simp at hm
      | cons e es =>
        have hs : p.step .handler
            = { p with handlerTodo := some es, log := p.log ++ [(.handler, e)],
                       exited := e.isExit } := by
          simp [Proc.step, hl, hto]
        rw [hs]
        refine ⟨fun hn => by simp at hn, Or.inr ?_⟩
        simp [handlerLeft, hto]

theorem ends_within (T : List Event) (sched : List Actor) :
    ∀ p : Proc, Reach T p → (p.handlerTodo = none → 1 ≤ p.chan) →
      (p.exited = true ∨ handlerLeft p ≤ sched.count .handler) →
      (Proc.run sched p).exited = true := by
  induction sched with
  | nil =>
    intro p h _ hc
    rcases hc with hc | hc
    · exact hc
    · by_contra hl
      simp only [Bool.not_eq_true] at hl
      cases hto : p.handlerTodo with
      | none => simp [handlerLeft, hto] at hc
      | some es =>
        obtain ⟨⟨m, hm, -⟩, -⟩ := handlerTodo_tail T p h hl es hto
        simp only [handlerLeft, hto, List.count_nil, Nat.le_zero, List.length_eq_zero] at hc
        rw [hc] at hm
        simp at hm
  | cons a sched ih =>
    intro p h harm hc
    by_cases hl : p.exited = true
    · rw [run_exited _ _ hl]; exact hl
    · simp only [Bool.not_eq_true] at hl
      obtain ⟨h1, h2⟩ := armed_step T p h hl harm a
      have hc2 : handlerLeft p ≤ (a :: sched).count .handler := by
        rcases hc with hc | hc
        · rw [hc] at hl; cases hl
        · exact hc
      refine ih (p.step a) (step_reach T p a h) h1 ?_
      rcases h2 with h2 | h2
      · exact Or.inl h2
      · right
        by_cases ha : a = .handler
        · subst ha
          simp only [if_true, List.count_cons_self] at h2 hc2
          omega
        · simp only [ha, if_false, Nat.add_zero] at h2
          rw [List.count_cons_of_ne (Ne.symm ha)] at hc2
          omega

theorem signal_then_ends (T : List Event) (p : Proc) (h : Reach T p) (sched : List Actor)
    (h6 : 6 ≤ sched.count .handler) : (Proc.run (.signal :: sched) p).exited = true := by
  by_cases hl : p.exited = true
  · rw [run_exited _ _ hl]; exact hl
  · simp only [Bool.not_eq_true] at hl
    have hs : p.step .signal = { p with chan := min 1 (p.chan + 1) } := by
      simp [Proc.step, hl]
    have hr := step_reach T p .signal h
    show (Proc.run sched (p.step .signal)).exited = true
    apply ends_within T sched _ hr
    · intro _
      rw [hs]
      show 1 ≤ min 1 (p.chan + 1)
      omega
    · right
      rw [hs]
      cases hto : p.handlerTodo with
      | none => simp only [handlerLeft, hto]; exact h6
      | some es =>
        obtain ⟨-, hlen⟩ := handlerTodo_tail T p h hl es hto
        simp only [handlerLeft, hto]
        omega

theorem exit_owner (T : List Event) (hs : Shape T) (p : Proc) (h : Reach T p)
    (a : Actor) (e : Event) (hmem : (a, e) ∈ p.log) (he : e.isExit = true) :
    p.log.getLast? = some (a, e) ∧ e = .osExit 0
    ∧ ∃ pre, (∀ x ∈ pre, x.isFinal = false) ∧ eventsOf a p.log = pre ++ handlerBody
        ∧ (a = .handler → pre = []) ∧ a ≠ .signal := by
  have hlast := exit_is_last p.log (a, e) hmem he h.last
  have hev : e ∈ eventsOf a p.log := (mem_eventsOf _ _ _).mpr hmem
  have hzero : ∀ pre, (∀ x ∈ pre, x.isFinal = false) → eventsOf a p.log = pre ++ handlerBody →
      e = .osExit 0 := by
    intro pre hp hEq
    rw [hEq] at hev
    simp only [handlerBody, List.mem_append, List.mem_singleton] at hev
    rcases hev with hev | hev | hev
    · have := isExit_of_not_final e (hp e hev)
      rw [this] at he; cases he
    · have := disableSystemProxy_no_exit e hev
      rw [this] at he; cases he
    · exact hev
  cases a with
  | main =>
    obtain ⟨pre, hp, hA, -⟩ := exit_by_main T _ _ hs h.main ⟨e, hev, he⟩
    exact ⟨hlast, hzero pre hp hA, pre, hp, hA, by simp, by simp⟩
  | handler =>
    have hh := h.handler
    cases hto : p.handlerTodo with
    | none =>
      rw [hto] at hh
      simp only [Option.getD_none, List.append_nil, Option.isSome_none, Bool.false_eq_true,
        if_false] at hh
      rw [hh] at hev
      simp at hev
    | some es =>
      rw [hto] at hh
      simp only [Option.getD_some, Option.isSome_some, if_true] at hh
      obtain ⟨h1, -⟩ := prefix_with_exit _ _ disableSystemProxy (.osExit 0) hh
        disableSystemProxy_no_exit ⟨e, hev, he⟩
      have hA : eventsOf .handler p.log = [] ++ handlerBody := by rw [h1]; rfl
      exact ⟨hlast, hzero [] (by simp) hA, [], by simp, hA, fun _ => rfl, by simp⟩
  | signal =>
    rw [h.signal] at hev
    simp at hev

theorem disables_of_not_mem (es : List Event) (h : Event.call .disableSystemProxy ∉ es) :
    disables es = 0 := by
  simp only [disables, List.countP_eq_zero, decide_eq_true_eq]
  intro e he hc
  exact h (hc ▸ he)

theorem step_mainReturns (p : Proc) (a : Actor) : (p.step a).mainReturns = p.mainReturns := by
  unfold Proc.step
  by_cases hex : p.exited = true
  · rw [if_pos hex]
  · rw [if_neg hex]
    cases a with
    | signal => rfl
    | handler =>
      dsimp only
      cases p.handlerTodo with
      | none =>
        dsimp only
        by_cases hc : p.chan = 0
        · rw [if_pos hc]
        · rw [if_neg hc]
      | some es => cases es <;> rfl
    | main =>
      dsimp only
      cases p.mainTodo with
      | nil =>
        dsimp only
        by_cases hr : p.mainReturns = true
        · rw [if_pos hr]
        · rw [if_neg hr]
      | cons e es => rfl

theorem run_mainReturns (sched : List Actor) :
    ∀ p : Proc, (Proc.run sched p).mainReturns = p.mainReturns := by
  induction sched with
  | nil => intro p; rfl
  | cons a sched ih => intro p; rw [Proc.run, ih, step_mainReturns]

theorem step_endedBy (p : Proc) (a : Actor) (h : EndedBy p) : EndedBy (p.step a) := by
  unfold Proc.step
  by_cases hex : p.exited = true
  · rw [if_pos hex]; exact h
  · rw [if_neg hex]
    cases a with
    | signal => intro hc; exact absurd hc hex
    | handler =>
      dsimp only
      cases p.handlerTodo with
      | none =>
        dsimp only
        by_cases hc : p.chan = 0
        · rw [if_pos hc]; exact h
        · rw [if_neg hc]; intro hc2; exact absurd hc2 hex
      | some es =>
        cases es with
        | nil => exact h
        | cons e es =>
          intro hc
          exact Or.inl ⟨(.handler, e), by simp, hc⟩
    | main =>
      dsimp only
      cases p.mainTodo with
      | nil =>
        dsimp only
        by_cases hr : p.mainReturns = true
        · rw [if_pos hr]; intro _; exact Or.inr hr
        · rw [if_neg hr]; exact h
      | cons e es =>
        intro hc
        exact Or.inl ⟨(.main, e), by simp, hc⟩

theorem run_endedBy (sched : List Actor) : ∀ p : Proc, EndedBy p → EndedBy (Proc.run sched p) := by
  induction sched with
  | nil => intro p h; exact h
  | cons a sched ih => intro p h; exact ih _ (step_endedBy p a h)

theorem boot_endedBy (tr : List Event × Ending) : EndedBy (boot tr) := by
  intro h
  simp [boot] at h

theorem exit_after_signal (T : List Event) (hs : Shape T) (p : Proc) (h : Reach T p)
    (he : EndedBy p) (hret : p.mainReturns = false) (later : List Actor)
    (h6 : 6 ≤ later.count .handler) :
    (Proc.run (.signal :: later) p).exited = true
    ∧ ∃ a pre, (Proc.run (.signal :: later) p).log.getLast? = some (a, .osExit 0)
        ∧ eventsOf a (Proc.run (.signal :: later) p).log
            = pre ++ disableSystemProxy ++ [.osExit 0] := by
  have hex := signal_then_ends T p h later h6
  have hr := run_reach T (.signal :: later) p h
  have hret2 : (Proc.run (.signal :: later) p).mainReturns = false := by
    rw [run_mainReturns]; exact hret
  refine ⟨hex, ?_⟩
  rcases run_endedBy (.signal :: later) p he hex with ⟨⟨a, e⟩, hx, hxe⟩ | hmr
  · obtain ⟨h1, h2, pre, -, h3, -, -⟩ := exit_owner T hs _ hr a e hx hxe
    subst h2
    exact ⟨a, pre, h1, by rw [h3]; simp [handlerBody]⟩
  · rw [hret2] at hmr
    cases hmr

theorem cleanup_of_reach (T : List Event) (hs : Shape T) (p : Proc) (h : Reach T p) :
    disableCalls p.log ≤ 2
    ∧ (∀ a c, (a, Event.osExit c) ∈ p.log →
        c = 0 ∧ p.log.getLast? = some (a, .osExit 0)
        ∧ ∃ pre, eventsOf a p.log = pre ++ disableSystemProxy ++ [.osExit 0])
    ∧ (∀ a c, (a, Event.osExit c) ∈ p.log →
        (eventsOf .handler p.log = [] ∨ (Actor.main, Event.call .disableSystemProxy) ∉ p.log) →
        disableCalls p.log = 1)
    ∧ (p.exited = false →
        (Proc.run (.signal :: List.replicate 6 .handler) p).exited = true
        ∧ eventsOf .handler (Proc.run (.signal :: List.replicate 6 .handler) p).log
            = disableSystemProxy ++ [.osExit 0]
        ∧ (Proc.run (.signal :: List.replicate 6 .handler) p).log.getLast?
            = some (.handler, .osExit 0)) := by
  have hsplit := disableCalls_split p.log
  have hsig : disables (eventsOf .signal p.log) = 0 := by rw [h.signal]; rfl
  refine ⟨?_, ?_, ?_, fun hl => signal_ends_process T p h hl⟩
  · have hm : disables (eventsOf .main p.log) ≤ 1 := by
      have := disables_shape T hs
      rw [← h.main, disables_append] at this
      omega
    have hh : disables (eventsOf .handler p.log) ≤ 1 := by
      have h1 := h.handler
      have h2 : disables (eventsOf .handler p.log ++ p.handlerTodo.getD []) ≤ 1 := by
        rw [h1]
        cases p.handlerTodo.isSome
        · exact Nat.zero_le _
        · exact le_of_eq disables_handlerBody
      rw [disables_append] at h2
      omega
    omega
  · intro a c hmem
    obtain ⟨h1, h2, pre, -, h3, -, -⟩ := exit_owner T hs p h a (.osExit c) hmem rfl
    have hc : c = 0 := by simpa using h2
    subst hc
    exact ⟨rfl, h1, pre, by rw [h3]; simp [handlerBody]⟩
  · intro a c hmem hcase
    obtain ⟨-, -, pre, hp, h3, h4, h5⟩ := exit_owner T hs p h a (.osExit c) hmem rfl
    rcases hcase with hcase | hcase
    · cases a with
      | main =>
        rw [hsplit, hsig, hcase, h3, disables_append, disables_not_final pre hp,
          disables_handlerBody]
        rfl
      | handler => rw [hcase] at h3; simp [handlerBody] at h3
      | signal => exact absurd rfl h5
    · have hm0 : disables (eventsOf .main p.log) = 0 := by
        apply disables_of_not_mem
        intro hc
        exact hcase ((mem_eventsOf _ _ _).mp hc)
      cases a with
      | main =>
        exfalso
        apply hcase
        apply (mem_eventsOf _ _ _).mp
        rw [h3]
        simp [handlerBody, disableSystemProxy]
      | handler =>
        rw [hsplit, hsig, hm0, h3, h4 rfl]
        rfl
      | signal => exact absurd rfl h5

/-- C9, as amended: for every run of `main` and every schedule of the main
    goroutine, the signal goroutine and the delivery of signals:
    `disableSystemProxy` is entered at most twice; when `os.Exit` has been
    called, it was called with 0 as the last effect of the process, by a
    goroutine that had run its own `disableSystemProxy` completely before;
    `disableSystemProxy` was then entered exactly once if the signal goroutine
    had performed nothing or the main goroutine had not entered it; from
    every state in which the process is running, the delivery of a signal
    followed by six steps of the signal goroutine ends the process, that
    goroutine having run `disableSystemProxy` and then `os.Exit(0)`; and in a
    run in which `main` does not return at line 208, whatever the main
    goroutine does after the delivery of a signal, by the time the signal
    goroutine has taken six steps the process has ended by an `os.Exit(0)` of
    a goroutine that had run `disableSystemProxy` completely before. -/
theorem signal_cleanup (pf : String → FloatParse) (fetch : FetchOutcome)
    (reply : Nat → ProbeOutcome) (pong : Nat → PingOutcome) (vsched : List Nat)
    (inputs : List Inputs) (sched : List Actor) :
    disableCalls (Proc.run sched (boot (main pf fetch reply pong vsched inputs))).log ≤ 2
    ∧ (∀ a c, (a, Event.osExit c)
          ∈ (Proc.run sched (boot (main pf fetch reply pong vsched inputs))).log →
        c = 0
        ∧ (Proc.run sched (boot (main pf fetch reply pong vsched inputs))).log.getLast?
            = some (a, .osExit 0)
        ∧ ∃ pre, eventsOf a (Proc.run sched (boot (main pf fetch reply pong vsched inputs))).log
            = pre ++ disableSystemProxy ++ [.osExit 0])
    ∧ (∀ a c, (a, Event.osExit c)
          ∈ (Proc.run sched (boot (main pf fetch reply pong vsched inputs))).log →
        (eventsOf .handler (Proc.run sched (boot (main pf fetch reply pong vsched inputs))).log = []
          ∨ (Actor.main, Event.call .disableSystemProxy)
              ∉ (Proc.run sched (boot (main pf fetch reply pong vsched inputs))).log) →
        disableCalls (Proc.run sched (boot (main pf fetch reply pong vsched inputs))).log = 1)
    ∧ ((Proc.run sched (boot (main pf fetch reply pong vsched inputs))).exited = false →
        (Proc.run (.signal :: List.replicate 6 .handler)
          (Proc.run sched (boot (main pf fetch reply pong vsched inputs)))).exited = true
        ∧ eventsOf .handler (Proc.run (.signal :: List.replicate 6 .handler)
            (Proc.run sched (boot (main pf fetch reply pong vsched inputs)))).log
            = disableSystemProxy ++ [.osExit 0]
        ∧ (Proc.run (.signal :: List.replicate 6 .handler)
            (Proc.run sched (boot (main pf fetch reply pong vsched inputs)))).log.getLast?
            = some (.handler, .osExit 0))
    ∧ ((main pf fetch reply pong vsched inputs).2 ≠ .returned →
        ∀ later : List Actor, 6 ≤ later.count .handler →
          (Proc.run (.signal :: later)
            (Proc.run sched (boot (main pf fetch reply pong vsched inputs)))).exited = true
          ∧ ∃ a pre,
              (Proc.run (.signal :: later)
                (Proc.run sched (boot (main pf fetch reply pong vsched inputs)))).log.getLast?
                = some (a, .osExit 0)
              ∧ eventsOf a (Proc.run (.signal :: later)
                  (Proc.run sched (boot (main pf fetch reply pong vsched inputs)))).log
                  = pre ++ disableSystemProxy ++ [.osExit 0]) := by
  have hs := main_shape pf fetch reply pong vsched inputs
  have hr := run_reach _ sched _ (boot_reach (main pf fetch reply pong vsched inputs))
  obtain ⟨c1, c2, c3, c4⟩ := cleanup_of_reach _ hs _ hr
  refine ⟨c1, c2, c3, c4, ?_⟩
  intro hne later h6
  have hret : (Proc.run sched (boot (main pf fetch reply pong vsched inputs))).mainReturns
      = false := by
    rw [run_mainReturns]
    simp [boot, hne]
  exact exit_after_signal _ hs _ hr (run_endedBy sched _ (boot_endedBy _)) hret later h6

set_option maxRecDepth 100000 in
/-- Two runs in which the claim fails.  In the first the user types "exit"
    and a signal is handled while the main goroutine is inside
    `disableSystemProxy`: the process ends through the signal path, by
    `os.Exit(0)` of the signal goroutine, after `disableSystemProxy` has been
    entered twice.  In the second a signal is delivered during validation, every
    candidate is rejected and `main` returns at line 208 before the signal
    goroutine takes a step: the process has ended with the signal still in the
    channel and `disableSystemProxy` never entered. -/
theorem signal_cleanup_fails :
    ((Proc.run raceSched (boot exitTrace)).exited = true
      ∧ (Proc.run raceSched (boot exitTrace)).log.getLast? = some (.handler, .osExit 0)
      ∧ (Actor.main, Event.call .disableSystemProxy) ∈ (Proc.run raceSched (boot exitTrace)).log
      ∧ (Actor.handler, Event.call .disableSystemProxy)
          ∈ (Proc.run raceSched (boot exitTrace)).log
      ∧ disableCalls (Proc.run raceSched (boot exitTrace)).log = 2)
    ∧ (returnTrace.2 = .returned
      ∧ (Proc.run (List.replicate 4 .main ++ [.signal]) (boot returnTrace)).exited = false
      ∧ (Proc.run (List.replicate 4 .main ++ [.signal]) (boot returnTrace)).chan = 1
      ∧ (Proc.run returnSched (boot returnTrace)).exited = true
      ∧ (Proc.run returnSched (boot returnTrace)).chan = 1
      ∧ (Proc.run returnSched (boot returnTrace)).handlerTodo = none
      ∧ disableCalls (Proc.run returnSched (boot returnTrace)).log = 0) := by
  decide

set_option maxRecDepth 100000 in
/-- A signal that arrives while the user is at the first prompt: the signal
    goroutine exits the process and `disableSystemProxy` has been entered
    once. -/
theorem signal_cleanup_witness :
    (Actor.handler, Event.osExit 0) ∈ (Proc.run calmSched (boot exitTrace)).log
    ∧ (Actor.main, Event.call .disableSystemProxy) ∉ (Proc.run calmSched (boot exitTrace)).log
    ∧ disableCalls (Proc.run calmSched (boot exitTrace)).log = 1 :=
  ⟨by decide, by decide,
   (signal_cleanup parseDecimal (.ok [candidate "10.0.0.1"]) (fun _ => .response 200)
      (fun _ => pingReport "50.200") (sequential 1) [typed "1", typed "exit"] calmSched).2.2.1
      .handler 0 (by decide) (Or.inr (by decide))⟩

end GProxy
